import Mathlib

/-!
# Doubly linked list of `Chapter_1_Challenges.c`

A shallow embedding of the C program: the heap of `Node` structs is an explicit
value that every operation takes and returns, pointers are optional addresses
(`none` is `NULL`), and an operation that dereferences `NULL` or a released node
returns a fault instead of a state.

Idealisations: `malloc` never returns `NULL` and never hands out an address
twice, and `int` counters are mathematical integers (no list reaches `2^31`
nodes).
-/

namespace DList

/-- A C pointer to a node: `none` is `NULL`, `some a` the address `a` of a heap cell. -/
abbrev Ptr := Option Nat

/-- The struct `Node`: `data`, `next`, `prev`. -/
structure Node where
  data : Int
  next : Ptr
  prev : Ptr
deriving DecidableEq, Repr

/-- The heap: cell `a` holds `some n` while the node at address `a` is allocated
and `none` once it has been released; addresses past the end were never handed out. -/
abbrev Heap := List (Option Node)

/-- Program state: the variable `head` of `main` and the heap. -/
structure State where
  head : Ptr
  heap : Heap
deriving DecidableEq, Repr

/-- Ways in which an execution leaves defined behaviour. -/
inductive Fault where
  /-- a `NULL` or released node was dereferenced or released -/
  | ub
  /-- a `while` loop did not stop within the number of heap cells -/
  | diverge
deriving DecidableEq, Repr

/-- What an insert or delete operation reports: nothing (`done`), or one of the
three messages it prints before returning. -/
inductive Report where
  /-- no message printed -/
  | done
  /-- "Position needs to be >= 1." -/
  | invalidPosition
  /-- "Position is larger than the number of existing nodes" -/
  | positionOutOfRange
  /-- "The list is empty." -/
  | emptyList
deriving DecidableEq, Repr

/-- What `search` prints. -/
inductive SearchReport where
  /-- "The list is empty." -/
  | emptyList
  /-- "%d found at position %d." with the key and the position -/
  | found (key : Int) (position : Int)
  /-- "%d not found in the list." with the key -/
  | notFound (key : Int)
deriving DecidableEq, Repr

deriving instance DecidableEq for Except

/-- The state `main` starts from: `head = NULL`, nothing allocated. -/
def init : State := ⟨none, []⟩

/-- Content of the cell at address `a`, `none` when it is not an allocated node. -/
def load (h : Heap) (a : Nat) : Option Node := h.getD a none

/-- Reading through pointer `p` (`p->...`): a fault when `p` is `NULL` or released. -/
def deref (h : Heap) (p : Ptr) : Except Fault Node :=
  match p with
  | none => .error .ub
  | some a =>
    match load h a with
    | none => .error .ub
    | some n => .ok n

/-- The assignment `p->next = v`. -/
def setNext (h : Heap) (p : Ptr) (v : Ptr) : Except Fault Heap :=
  match p with
  | none => .error .ub
  | some a =>
    match load h a with
    | none => .error .ub
    | some n => .ok (h.set a (some ⟨n.data, v, n.prev⟩))

/-- The assignment `p->prev = v`. -/
def setPrev (h : Heap) (p : Ptr) (v : Ptr) : Except Fault Heap :=
  match p with
  | none => .error .ub
  | some a =>
    match load h a with
    | none => .error .ub
    | some n => .ok (h.set a (some ⟨n.data, n.next, v⟩))

/-- The call `free(p)`: no effect on `NULL`, a fault on a node that is not allocated. -/
def free (h : Heap) (p : Ptr) : Except Fault Heap :=
  match p with
  | none => .ok h
  | some a =>
    match load h a with
    | none => .error .ub
    | some _ => .ok (h.set a none)

/-- `createNode(data)`: a fresh cell holding `data` with both links `NULL`;
returns the new address and the extended heap. -/
def createNode (h : Heap) (data : Int) : Nat × Heap :=
  (h.length, h ++ [some ⟨data, none, none⟩])

/-- `insertAtBeginning(&head, data)`. -/
def insertAtBeginning (s : State) (data : Int) : Except Fault (Report × State) :=
  let (newNode, h0) := createNode s.heap data
  match s.head with
  | none => .ok (.done, ⟨some newNode, h0⟩)
  | some hd => do
    let h1 ← setNext h0 (some newNode) (some hd)
    let h2 ← setPrev h1 (some hd) (some newNode)
    .ok (.done, ⟨some newNode, h2⟩)

/-- The loop `while (temp->next != NULL) temp = temp->next;` started at `temp`,
run for at most `fuel` iterations. -/
def lastNode (h : Heap) : Nat → Nat → Except Fault Nat
  | 0, _ => .error .diverge
  | fuel + 1, temp =>
    match load h temp with
    | none => .error .ub
    | some n =>
      match n.next with
      | none => .ok temp
      | some nx => lastNode h fuel nx

/-- `insertAtEnd(&head, data)`. -/
def insertAtEnd (s : State) (data : Int) : Except Fault (Report × State) :=
  let (newNode, h0) := createNode s.heap data
  match s.head with
  | none => .ok (.done, ⟨some newNode, h0⟩)
  | some hd => do
    let temp ← lastNode h0 h0.length hd
    let h1 ← setNext h0 (some temp) (some newNode)
    let h2 ← setPrev h1 (some newNode) (some temp)
    .ok (.done, ⟨s.head, h2⟩)

/-- The loop `for (i = 1; temp != NULL && i < bound; i++) temp = temp->next;`
where `k` is the number of values `i` takes below `bound`, that is
`(bound - 1).toNat`. -/
def advance (h : Heap) : Nat → Ptr → Except Fault Ptr
  | 0, temp => .ok temp
  | _ + 1, none => .ok none
  | k + 1, some a =>
    match load h a with
    | none => .error .ub
    | some n => advance h k n.next

/-- `insertAtPosition(&head, data, position)`. -/
def insertAtPosition (s : State) (data : Int) (position : Int) :
    Except Fault (Report × State) :=
  if position < 1 then .ok (.invalidPosition, s)
  else if position = 1 then insertAtBeginning s data
  else
    let (newNode, h0) := createNode s.heap data
    match advance h0 (position - 1 - 1).toNat s.head with
    | .error e => .error e
    | .ok none => do
      let h1 ← free h0 (some newNode)
      .ok (.positionOutOfRange, ⟨s.head, h1⟩)
    | .ok (some temp) => do
      let t ← deref h0 (some temp)
      let h1 ← setNext h0 (some newNode) t.next
      let h2 ← setPrev h1 (some newNode) (some temp)
      let t2 ← deref h2 (some temp)
      let h3 ← (match t2.next with
        | none => .ok h2
        | some nx => setPrev h2 (some nx) (some newNode))
      let h4 ← setNext h3 (some temp) (some newNode)
      .ok (.done, ⟨s.head, h4⟩)

/-- `deleteAtBeginning(&head)`. -/
def deleteAtBeginning (s : State) : Except Fault (Report × State) :=
  match s.head with
  | none => .ok (.emptyList, s)
  | some temp => do
    let t ← deref s.heap (some temp)
    let h1 ← (match t.next with
      | none => .ok s.heap
      | some nh => setPrev s.heap (some nh) none)
    let h2 ← free h1 (some temp)
    .ok (.done, ⟨t.next, h2⟩)

/-- `deleteAtEnd(&head)`. -/
def deleteAtEnd (s : State) : Except Fault (Report × State) :=
  match s.head with
  | none => .ok (.emptyList, s)
  | some hd => do
    let t ← deref s.heap (some hd)
    match t.next with
    | none => do
      let h1 ← free s.heap (some hd)
      .ok (.done, ⟨none, h1⟩)
    | some _ => do
      let temp ← lastNode s.heap s.heap.length hd
      let l ← deref s.heap (some temp)
      let h1 ← setNext s.heap l.prev none
      let h2 ← free h1 (some temp)
      .ok (.done, ⟨s.head, h2⟩)

/-- `deleteAtPosition(&head, position)`. -/
def deleteAtPosition (s : State) (position : Int) : Except Fault (Report × State) :=
  match s.head with
  | none => .ok (.emptyList, s)
  | some _ =>
    if position = 1 then deleteAtBeginning s
    else
      match advance s.heap (position - 1).toNat s.head with
      | .error e => .error e
      | .ok none => .ok (.positionOutOfRange, s)
      | .ok (some temp) => do
        let t ← deref s.heap (some temp)
        let h1 ← (match t.next with
          | none => .ok s.heap
          | some nx => setPrev s.heap (some nx) t.prev)
        let t2 ← deref h1 (some temp)
        let h2 ← (match t2.prev with
          | none => .ok h1
          | some pv => setNext h1 (some pv) t2.next)
        let h3 ← free h2 (some temp)
        .ok (.done, ⟨s.head, h3⟩)

/-- The `while (temp != NULL)` loop of `search`, at node `temp` with counter
`position`, run for at most `fuel` iterations. -/
def searchLoop (h : Heap) (key : Int) : Nat → Ptr → Int → Except Fault SearchReport
  | _, none, _ => .ok (.notFound key)
  | 0, some _, _ => .error .diverge
  | fuel + 1, some a, position =>
    match load h a with
    | none => .error .ub
    | some n =>
      if n.data = key then .ok (.found key position)
      else searchLoop h key fuel n.next (position + 1)

/-- `search(head, key)`. -/
def search (s : State) (key : Int) : Except Fault SearchReport :=
  match s.head with
  | none => .ok .emptyList
  | some hd => searchLoop s.heap key s.heap.length (some hd) 1

/-- The `while (temp != NULL)` loop of `printList`: the values printed from `temp` on. -/
def printLoop (h : Heap) : Nat → Ptr → Except Fault (List Int)
  | _, none => .ok []
  | 0, some _ => .error .diverge
  | fuel + 1, some a =>
    match load h a with
    | none => .error .ub
    | some n =>
      match printLoop h fuel n.next with
      | .error e => .error e
      | .ok rest => .ok (n.data :: rest)

/-- `printList(head)`: the sequence of values printed, head to tail. -/
def printList (s : State) : Except Fault (List Int) :=
  printLoop s.heap s.heap.length s.head

/-- The six mutating operations with their arguments. -/
inductive Op where
  | insertAtBeginning (data : Int)
  | insertAtEnd (data : Int)
  | insertAtPosition (data : Int) (position : Int)
  | deleteAtBeginning
  | deleteAtEnd
  | deleteAtPosition (position : Int)
deriving DecidableEq, Repr

/-- Running one operation. -/
def step (s : State) : Op → Except Fault (Report × State)
  | .insertAtBeginning d => insertAtBeginning s d
  | .insertAtEnd d => insertAtEnd s d
  | .insertAtPosition d p => insertAtPosition s d p
  | .deleteAtBeginning => deleteAtBeginning s
  | .deleteAtEnd => deleteAtEnd s
  | .deleteAtPosition p => deleteAtPosition s p

/-- Running a sequence of operations from state `s`, collecting the reports. -/
def run (s : State) : List Op → Except Fault (List Report × State)
  | [] => .ok ([], s)
  | op :: ops =>
    match step s op with
    | .error e => .error e
    | .ok (r, s1) =>
      match run s1 ops with
      | .error e => .error e
      | .ok (rs, s2) => .ok (r :: rs, s2)

/-- A stretch of the list: starting at pointer `c`, whose node must point back to
`p`, the nodes at the listed addresses hold the listed values and are chained by
`next` and `prev`; `c1` is the `next` link of the last listed node (or `c` itself
when none is listed) and `p1` the address of that last node (or `p`). -/
def Seg (h : Heap) : Ptr → Ptr → List (Nat × Int) → Ptr → Ptr → Prop
  | p, c, [], p1, c1 => p1 = p ∧ c1 = c
  | p, c, (a, x) :: ns, p1, c1 =>
    c = some a ∧
      match load h a with
      | none => False
      | some n => n.data = x ∧ n.prev = p ∧ Seg h (some a) n.next ns p1 c1

/-- The state holds the list `ns` of (address, value) pairs: the addresses are
pairwise different, `head` designates the first, every node's `next` is the
following address and `prev` the preceding one, the first `prev` and the last
`next` are `NULL`. -/
def Rep (s : State) (ns : List (Nat × Int)) : Prop :=
  (ns.map Prod.fst).Nodup ∧ ∃ p1, Seg s.heap none s.head ns p1 none

/-- Well-formed list (the invariants of the data model): `head` is `NULL` or
designates an allocated node whose `prev` is `NULL`, following `next` from `head`
visits pairwise different allocated nodes and ends at a `NULL` link, and
`B.prev = A` whenever `A.next = B` on that chain. -/
def WF (s : State) : Prop := ∃ ns, Rep s ns

/-- Number of inserts that reported nothing, over a list of (operation, report). -/
def insertsDone : List (Op × Report) → Nat
  | [] => 0
  | (.insertAtBeginning _, .done) :: rest => insertsDone rest + 1
  | (.insertAtEnd _, .done) :: rest => insertsDone rest + 1
  | (.insertAtPosition _ _, .done) :: rest => insertsDone rest + 1
  | _ :: rest => insertsDone rest

/-- Number of deletes that reported nothing, over a list of (operation, report). -/
def deletesDone : List (Op × Report) → Nat
  | [] => 0
  | (.deleteAtBeginning, .done) :: rest => deletesDone rest + 1
  | (.deleteAtEnd, .done) :: rest => deletesDone rest + 1
  | (.deleteAtPosition _, .done) :: rest => deletesDone rest + 1
  | _ :: rest => deletesDone rest

/-- `Seg` is decidable: it only inspects the listed cells. -/
instance Seg.decide (h : Heap) : ∀ (ns : List (Nat × Int)) (p c p1 c1 : Ptr),
    Decidable (Seg h p c ns p1 c1)
  | [], p, c, p1, c1 => by unfold Seg; exact inferInstance
  | (a, x) :: ns, p, c, p1, c1 => by
    unfold Seg
    cases hl : load h a with
    | none => exact isFalse (fun hh => hh.2)
    | some n =>
      have := Seg.decide h ns (some a) n.next p1 c1
      exact inferInstanceAs (Decidable (c = some a ∧ (n.data = x ∧ n.prev = p ∧ _)))

/-- The two-node list `1, 2` as `insertAtEnd(1)`, `insertAtEnd(2)` build it from `init`. -/
def twoNodes : State := ⟨some 0, [some ⟨1, some 1, none⟩, some ⟨2, none, some 0⟩]⟩

/-- The one-node list `1` as `insertAtEnd(1)` builds it from `init`. -/
def oneNode : State := ⟨some 0, [some ⟨1, none, none⟩]⟩

/-- The operation's position argument is in the range its sibling insert checks
for: `deleteAtPosition` is called with a position of at least `1`. -/
def Op.guarded : Op → Prop
  | .deleteAtPosition p => 1 ≤ p
  | _ => True

/-- The heap and `head` of `main` after its four inserts (values `0, 3, 1, 2`). -/
def demoInserted : State :=
  ⟨some 2, [some ⟨1, some 1, some 3⟩, some ⟨2, none, some 0⟩, some ⟨0, some 3, none⟩,
    some ⟨3, some 0, some 2⟩]⟩

/-- The state of `main` after its `deleteAtBeginning` (values `3, 1, 2`). -/
def demoFirstGone : State :=
  ⟨some 3, [some ⟨1, some 1, some 3⟩, some ⟨2, none, some 0⟩, none, some ⟨3, some 0, none⟩]⟩

/-- The state of `main` after its `deleteAtEnd` (values `3, 1`). -/
def demoLastGone : State :=
  ⟨some 3, [some ⟨1, none, some 3⟩, none, none, some ⟨3, some 0, none⟩]⟩

/-- The state of `main` after its `deleteAtPosition(2)` (value `3`). -/
def demoFinal : State :=
  ⟨some 3, [none, none, none, some ⟨3, none, none⟩]⟩

/-- Address of the first listed node, `NULL` for the empty list. -/
def firstAddr (ns : List (Nat × Int)) : Ptr := ns.head?.map Prod.fst

/-- Address of the last listed node, `NULL` for the empty list. -/
def lastAddr (ns : List (Nat × Int)) : Ptr := ns.getLast?.map Prod.fst

/-- The addresses of the nodes that have been allocated and not released. -/
def allocated (h : Heap) : List Nat := (List.range h.length).filter (fun a => (load h a).isSome)

/-- Whether an operation is guarded can be computed. -/
instance Op.guarded.decide (op : Op) : Decidable op.guarded := by
  cases op <;> unfold Op.guarded <;> exact inferInstance

/-! ## Heap cells -/

theorem load_lt {h : Heap} {a : Nat} {n : Node} (hl : load h a = some n) : a < h.length := by
  by_contra hc
  simp [load, List.getD_eq_getElem?_getD, List.getElem?_eq_none (not_lt.mp hc)] at hl

theorem load_length (h : Heap) : load h h.length = none := by
  simp [load, List.getD_eq_getElem?_getD]

theorem load_set {h : Heap} {a : Nat} (c : Option Node) (b : Nat) (ha : a < h.length) :
    load (h.set a c) b = if b = a then c else load h b := by
  simp only [load, List.getD_eq_getElem?_getD, List.getElem?_set]
  by_cases hb : b = a
  · subst hb; simp [ha]
  · simp [hb, Ne.symm hb]

theorem load_append (h : Heap) (c : Option Node) (b : Nat) :
    load (h ++ [c]) b = if b = h.length then c else load h b := by
  simp only [load, List.getD_eq_getElem?_getD, List.getElem?_append]
  by_cases hb : b = h.length
  · subst hb; simp
  · rcases Nat.lt_or_gt_of_ne hb with h1 | h1
    · simp [h1, hb]
    · have h2 : ¬ b < h.length := Nat.not_lt.mpr (Nat.le_of_lt h1)
      obtain ⟨k, hk⟩ : ∃ k, b - h.length = k + 1 := ⟨b - h.length - 1, by omega⟩
      simp [h2, hb, List.getElem?_eq_none (Nat.le_of_lt h1), hk]

/-! ## Segments -/

theorem seg_nil {h : Heap} {p c p1 c1 : Ptr} : Seg h p c [] p1 c1 ↔ p1 = p ∧ c1 = c := by
  simp [Seg]

theorem seg_cons {h : Heap} {p c p1 c1 : Ptr} {a : Nat} {x : Int} {ns : List (Nat × Int)} :
    Seg h p c ((a, x) :: ns) p1 c1 ↔
      c = some a ∧ ∃ nx, load h a = some ⟨x, nx, p⟩ ∧ Seg h (some a) nx ns p1 c1 := by
  rw [Seg]
  cases hl : load h a with
  | none => simp
  | some n =>
    obtain ⟨d, nx, pv⟩ := n
    constructor
    · rintro ⟨hc, hd, hp, hs⟩
      simp only at hd hp hs
      subst hd hp
      exact ⟨hc, nx, rfl, hs⟩
    · rintro ⟨hc, nx1, he, hs⟩
      simp only [Option.some.injEq, Node.mk.injEq] at he
      obtain ⟨hd, hn, hp⟩ := he
      subst hd hn hp
      exact ⟨hc, rfl, rfl, hs⟩

/-- A segment only depends on the cells it lists. -/
theorem seg_frame {h h1 : Heap} : ∀ {ns : List (Nat × Int)} {p c p1 c1 : Ptr},
    (∀ a ∈ ns.map Prod.fst, load h1 a = load h a) →
    Seg h p c ns p1 c1 → Seg h1 p c ns p1 c1
  | [], _, _, _, _, _, hs => by simpa [Seg] using hs
  | (a, x) :: ns, p, c, p1, c1, hf, hs => by
    rw [seg_cons] at hs ⊢
    obtain ⟨hc, nx, hl, hrest⟩ := hs
    refine ⟨hc, nx, ?_, seg_frame (fun b hb => hf b (by simp at hb ⊢; exact Or.inr hb)) hrest⟩
    rw [hf a (by simp), hl]

theorem seg_append {h : Heap} : ∀ {l1 l2 : List (Nat × Int)} {p c p1 c1 : Ptr},
    Seg h p c (l1 ++ l2) p1 c1 ↔ ∃ pm cm, Seg h p c l1 pm cm ∧ Seg h pm cm l2 p1 c1
  | [], l2, p, c, p1, c1 => by
    simp only [List.nil_append, seg_nil]
    constructor
    · intro hs; exact ⟨p, c, ⟨rfl, rfl⟩, hs⟩
    · rintro ⟨pm, cm, ⟨rfl, rfl⟩, hs⟩; exact hs
  | (a, x) :: l1, l2, p, c, p1, c1 => by
    simp only [List.cons_append, seg_cons]
    constructor
    · rintro ⟨hc, nx, hl, hs⟩
      obtain ⟨pm, cm, h1, h2⟩ := seg_append.mp hs
      exact ⟨pm, cm, ⟨hc, nx, hl, h1⟩, h2⟩
    · rintro ⟨pm, cm, ⟨hc, nx, hl, h1⟩, h2⟩
      exact ⟨hc, nx, hl, seg_append.mpr ⟨pm, cm, h1, h2⟩⟩

/-- Every listed address is an allocated node. -/
theorem seg_live {h : Heap} : ∀ {ns : List (Nat × Int)} {p c p1 c1 : Ptr},
    Seg h p c ns p1 c1 → ∀ a ∈ ns.map Prod.fst, ∃ n, load h a = some n
  | [], _, _, _, _, _, a, ha => by simp at ha
  | (b, x) :: ns, p, c, p1, c1, hs, a, ha => by
    rw [seg_cons] at hs
    obtain ⟨_, nx, hl, hrest⟩ := hs
    simp only [List.map_cons, List.mem_cons] at ha
    rcases ha with rfl | ha
    · exact ⟨_, hl⟩
    · exact seg_live hrest a ha

/-- The back pointer after a non-empty segment is its last address. -/
theorem seg_back {h : Heap} : ∀ {ns : List (Nat × Int)} {p c p1 c1 : Ptr} {a : Nat} {x : Int},
    Seg h p c (ns ++ [(a, x)]) p1 c1 → p1 = some a
  | [], p, c, p1, c1, a, x, hs => by
    simp only [List.nil_append, seg_cons, seg_nil] at hs
    exact hs.2.choose_spec.2.1
  | (b, y) :: ns, p, c, p1, c1, a, x, hs => by
    simp only [List.cons_append, seg_cons] at hs
    obtain ⟨_, nx, _, hrest⟩ := hs
    exact seg_back hrest

theorem seg_length_le {h : Heap} {ns : List (Nat × Int)} {p c p1 c1 : Ptr}
    (hn : (ns.map Prod.fst).Nodup) (hs : Seg h p c ns p1 c1) : ns.length ≤ h.length := by
  have hsub : ns.map Prod.fst ⊆ List.range h.length := by
    intro a ha
    obtain ⟨n, hl⟩ := seg_live hs a ha
    exact List.mem_range.mpr (load_lt hl)
  simpa using (hn.subperm hsub).length_le

/-- The fresh address is not on the list. -/
theorem seg_fresh {h : Heap} {ns : List (Nat × Int)} {p c p1 c1 : Ptr}
    (hs : Seg h p c ns p1 c1) : h.length ∉ ns.map Prod.fst := by
  intro ha
  obtain ⟨n, hl⟩ := seg_live hs _ ha
  exact absurd (load_lt hl) (lt_irrefl _)

/-! ## Loops on a segment -/

theorem printLoop_seg {h : Heap} : ∀ {ns : List (Nat × Int)} {p c p1 : Ptr} {f : Nat},
    Seg h p c ns p1 none → ns.length ≤ f → printLoop h f c = .ok (ns.map Prod.snd)
  | [], p, c, p1, fuel, hs, _ => by
    obtain ⟨_, hc⟩ := seg_nil.mp hs
    subst hc
    cases fuel <;> simp [printLoop]
  | (a, x) :: ns, p, c, p1, fuel, hs, hf => by
    obtain ⟨hc, nx, hl, hrest⟩ := seg_cons.mp hs
    subst hc
    cases fuel with
    | zero => simp at hf
    | succ k =>
      have ih := printLoop_seg hrest (f := k) (by simpa using hf)
      simp [printLoop, hl, ih]

theorem advance_seg {h : Heap} : ∀ {l1 : List (Nat × Int)} {p c pm cm : Ptr},
    Seg h p c l1 pm cm → advance h l1.length c = .ok cm
  | [], p, c, pm, cm, hs => by
    obtain ⟨_, hc⟩ := seg_nil.mp hs
    subst hc
    simp [advance]
  | (a, x) :: l1, p, c, pm, cm, hs => by
    obtain ⟨hc, nx, hl, hrest⟩ := seg_cons.mp hs
    subst hc
    simp [advance, hl, advance_seg hrest]

theorem advance_none (h : Heap) : ∀ k : Nat, advance h k none = .ok none
  | 0 => rfl
  | _ + 1 => rfl

theorem advance_overrun {h : Heap} : ∀ {ns : List (Nat × Int)} {p c p1 : Ptr} {k : Nat},
    Seg h p c ns p1 none → ns.length ≤ k → advance h k c = .ok none
  | [], p, c, p1, k, hs, _ => by
    obtain ⟨_, hc⟩ := seg_nil.mp hs
    subst hc
    exact advance_none h k
  | (a, x) :: ns, p, c, p1, k, hs, hk => by
    obtain ⟨hc, nx, hl, hrest⟩ := seg_cons.mp hs
    subst hc
    cases k with
    | zero => simp at hk
    | succ k =>
      simp [advance, hl, advance_overrun hrest (k := k) (by simpa using hk)]

theorem lastNode_seg {h : Heap} : ∀ {ns : List (Nat × Int)} {p p1 : Ptr} {a t : Nat} {x : Int}
    {f : Nat}, Seg h p (some a) (ns ++ [(t, x)]) p1 none → ns.length < f →
    lastNode h f a = .ok t
  | [], p, p1, a, t, x, fuel, hs, hf => by
    simp only [List.nil_append, seg_cons, seg_nil] at hs
    obtain ⟨hc, nx, hl, _, hnx⟩ := hs
    simp only [Option.some.injEq] at hc
    subst hc
    subst hnx
    cases fuel with
    | zero => simp at hf
    | succ k => simp [lastNode, hl]
  | (b, y) :: ns, p, p1, a, t, x, fuel, hs, hf => by
    simp only [List.cons_append] at hs
    obtain ⟨hc, nx, hl, hrest⟩ := seg_cons.mp hs
    simp only [Option.some.injEq] at hc
    subst hc
    cases fuel with
    | zero => simp at hf
    | succ k =>
      have hnx : ∃ a1, nx = some a1 := by
        cases ns with
        | nil => exact ⟨t, (seg_cons.mp hrest).1⟩
        | cons q qs => exact ⟨q.1, (seg_cons.mp hrest).1⟩
      obtain ⟨a1, rfl⟩ := hnx
      have ih := lastNode_seg hrest (f := k) (by simpa using hf)
      simp [lastNode, hl, ih]

theorem searchLoop_miss {h : Heap} {key : Int} :
    ∀ {ns : List (Nat × Int)} {p c p1 : Ptr} {f : Nat} {z : Int},
    Seg h p c ns p1 none → ns.length ≤ f → key ∉ ns.map Prod.snd →
    searchLoop h key f c z = .ok (.notFound key)
  | [], p, c, p1, fuel, pos, hs, _, _ => by
    obtain ⟨_, hc⟩ := seg_nil.mp hs
    subst hc
    cases fuel <;> simp [searchLoop]
  | (a, x) :: ns, p, c, p1, fuel, pos, hs, hf, hk => by
    obtain ⟨hc, nx, hl, hrest⟩ := seg_cons.mp hs
    subst hc
    simp only [List.map_cons, List.mem_cons, not_or] at hk
    cases fuel with
    | zero => simp at hf
    | succ k =>
      have ih := searchLoop_miss hrest (f := k) (z := pos + 1) (by simpa using hf) hk.2
      simp [searchLoop, hl, Ne.symm hk.1, ih]

theorem searchLoop_hit {h : Heap} {key : Int} :
    ∀ {ns : List (Nat × Int)} {p c p1 : Ptr} {f : Nat} {z : Int},
    Seg h p c ns p1 none → ns.length ≤ f → key ∈ ns.map Prod.snd →
    ∃ i : Nat, searchLoop h key f c z = .ok (.found key (z + i)) ∧
      (ns.map Prod.snd)[i]? = some key ∧ ∀ j, j < i → (ns.map Prod.snd)[j]? ≠ some key
  | [], _, _, _, _, _, _, _, hk => by simp at hk
  | (a, x) :: ns, p, c, p1, fuel, pos, hs, hf, hk => by
    obtain ⟨hc, nx, hl, hrest⟩ := seg_cons.mp hs
    subst hc
    cases fuel with
    | zero => simp at hf
    | succ k =>
      by_cases hx : x = key
      · refine ⟨0, ?_, ?_, ?_⟩
        · simp [searchLoop, hl, hx]
        · simp [hx]
        · intro j hj; omega
      · have hk1 : key ∈ ns.map Prod.snd := by
          simp only [List.map_cons, List.mem_cons] at hk
          rcases hk with hk | hk
          · exact absurd hk.symm hx
          · exact hk
        obtain ⟨i, h1, h2, h3⟩ :=
          searchLoop_hit hrest (f := k) (z := pos + 1) (by simpa using hf) hk1
        refine ⟨i + 1, ?_, ?_, ?_⟩
        · have he : pos + 1 + (i : Int) = pos + ((i + 1 : Nat) : Int) := by
            push_cast
            ring
          simp only [searchLoop, hl, hx, if_false, h1, he]
        · simpa using h2
        · intro j hj
          cases j with
          | zero => simpa using hx
          | succ j => simpa using h3 j (by omega)

/-! ## Effect of the operations on a represented list -/

theorem load_set_if (h : Heap) (a : Nat) (c : Option Node) (b : Nat) :
    load (h.set a c) b = if b = a ∧ a < h.length then c else load h b := by
  by_cases ha : a < h.length
  · rw [load_set c b ha]; simp [ha]
  · have : h.set a c = h := by
      apply List.ext_getElem? 
      intro i
      rw [List.getElem?_set]
      by_cases hi : a = i
      · subst hi; simp [ha, List.getElem?_eq_none (not_lt.mp ha)]
      · simp [hi]
    simp [this, ha]

theorem insertAtBeginning_rep {s : State} {ns : List (Nat × Int)} (v : Int) (hr : Rep s ns) :
    ∃ s1, insertAtBeginning s v = .ok (.done, s1) ∧ Rep s1 ((s.heap.length, v) :: ns) := by
  obtain ⟨hd, hp⟩ := s
  obtain ⟨hnd, p1, hs⟩ := hr
  simp only at hs
  have hfresh := seg_fresh hs
  cases ns with
  | nil =>
    obtain ⟨_, hc⟩ := seg_nil.mp hs
    subst hc
    refine ⟨State.mk (some hp.length) (hp ++ [some (Node.mk v none none)]),
      by simp [insertAtBeginning, createNode], by simp, some hp.length, ?_⟩
    simp [seg_cons, seg_nil, load_append]
  | cons q ns =>
    obtain ⟨a, x⟩ := q
    obtain ⟨hc, nx, hl, hrest⟩ := seg_cons.mp hs
    subst hc
    have ha := load_lt hl
    have hne : a ≠ hp.length := Nat.ne_of_lt ha
    simp only [List.map_cons, List.mem_cons, not_or] at hfresh
    simp only [List.map_cons, List.nodup_cons] at hnd
    refine ⟨State.mk (some hp.length) (((hp ++ [some (Node.mk v none none)]).set hp.length
        (some (Node.mk v (some a) none))).set a (some (Node.mk x nx (some hp.length)))),
      ?_, ?_, p1, ?_⟩
    · simp [insertAtBeginning, createNode, setNext, setPrev, load_append, load_set_if, hne, hl,
        bind, Except.bind]
    · simp only [List.map_cons, List.nodup_cons, List.mem_cons, not_or]
      exact ⟨⟨Ne.symm hne, hfresh.2⟩, hnd⟩
    · refine seg_cons.mpr ⟨rfl, some a, ?_, seg_cons.mpr ⟨rfl, nx, ?_, ?_⟩⟩
      · simp [load_set_if, load_append, hne, Ne.symm hne]
      · simp [load_set_if, load_append, hne, ha]
      · refine seg_frame (fun b hb => ?_) hrest
        have hb1 : b ≠ a := fun e => hnd.1 (e ▸ hb)
        have hb2 : b ≠ hp.length := fun e => hfresh.2 (e ▸ hb)
        simp [load_set_if, load_append, hb1, hb2]

theorem deleteAtBeginning_rep {s : State} {a : Nat} {x : Int} {ns : List (Nat × Int)}
    (hr : Rep s ((a, x) :: ns)) :
    ∃ s1, deleteAtBeginning s = .ok (.done, s1) ∧ Rep s1 ns := by
  obtain ⟨hd, hp⟩ := s
  obtain ⟨hnd, p1, hs⟩ := hr
  simp only at hs
  obtain ⟨hc, nx, hl, hrest⟩ := seg_cons.mp hs
  subst hc
  have ha := load_lt hl
  simp only [List.map_cons, List.nodup_cons] at hnd
  cases ns with
  | nil =>
    obtain ⟨_, hc⟩ := seg_nil.mp hrest
    subst hc
    refine ⟨State.mk none (hp.set a none), ?_, by simp, none, by simp [seg_nil]⟩
    simp [deleteAtBeginning, deref, free, hl, bind, Except.bind]
  | cons q ns =>
    obtain ⟨b, y⟩ := q
    obtain ⟨hc, nx2, hl2, hrest2⟩ := seg_cons.mp hrest
    subst hc
    have hb := load_lt hl2
    have hne : b ≠ a := fun e => hnd.1 (by simp [e])
    have hnd2 := hnd.2
    simp only [List.map_cons, List.nodup_cons] at hnd
    refine ⟨State.mk (some b) ((hp.set b (some (Node.mk y nx2 none))).set a none),
      ?_, hnd2, p1, ?_⟩
    · simp [deleteAtBeginning, deref, free, setPrev, hl, hl2, load_set_if, Ne.symm hne, bind,
        Except.bind]
    · refine seg_cons.mpr ⟨rfl, nx2, ?_, ?_⟩
      · simp [load_set_if, hne, hb]
      · refine seg_frame (fun c hc => ?_) hrest2
        have hc1 : c ≠ b := fun e => hnd.2.1 (e ▸ hc)
        have hc2 : c ≠ a := fun e => hnd.1 (by simp [← e, hc])
        simp [load_set_if, hc1, hc2]

/-- Splicing a new node after the node at address `t`, reached after `l1`. -/
theorem insertAfter_rep {hd : Ptr} {hp : Heap} {l1 l2 : List (Nat × Int)} {t : Nat} {x : Int}
    (v : Int) (hr : Rep ⟨hd, hp⟩ (l1 ++ (t, x) :: l2)) :
    ∃ s1, insertAtPosition ⟨hd, hp⟩ v ((l1.length : Int) + 2) = .ok (.done, s1) ∧
      Rep s1 (l1 ++ (t, x) :: (hp.length, v) :: l2) := by
  obtain ⟨hnd, p1, hs⟩ := hr
  simp only at hs
  have hfresh := seg_fresh hs
  obtain ⟨pm, cm, hs1, hs2⟩ := seg_append.mp hs
  obtain ⟨hc, nx, hl, hrest⟩ := seg_cons.mp hs2
  subst hc
  have ht := load_lt hl
  have htn : t ≠ hp.length := Nat.ne_of_lt ht
  have ht1 : t < hp.length + 1 := Nat.lt_succ_of_lt ht
  have hpos1 : ¬ ((l1.length : Int) + 2 < 1) := by omega
  have hpos2 : ¬ ((l1.length : Int) + 2 = 1) := by omega
  have hk : ((l1.length : Int) + 2 - 1 - 1).toNat = l1.length := by omega
  have hs1' : Seg (hp ++ [some (Node.mk v none none)]) none hd l1 pm (some t) :=
    seg_frame (fun b hb => by
      have : b ≠ hp.length := fun e => hfresh (by simp [← e]; exact Or.inl (by simpa using hb))
      simp [load_append, this]) hs1
  have hadv := advance_seg hs1'
  simp only [List.map_append, List.map_cons, List.nodup_append, List.nodup_cons,
    List.mem_append, List.mem_cons, not_or] at hnd hfresh
  obtain ⟨hn1, ⟨ht2, hn2⟩, hdis⟩ := hnd
  have hl1t : ∀ b ∈ l1.map Prod.fst, b ≠ t := fun b hb e =>
    hdis hb (by simp [e])
  have hl1new : ∀ b ∈ l1.map Prod.fst, b ≠ hp.length := fun b hb e => hfresh.1 (e ▸ hb)
  have hl1l2 : ∀ b ∈ l1.map Prod.fst, b ∉ l2.map Prod.fst := fun b hb hb2 =>
    hdis hb (by simp only [List.mem_cons]; exact Or.inr hb2)
  cases l2 with
  | nil =>
    obtain ⟨hp1, hc⟩ := seg_nil.mp hrest
    subst hc
    refine ⟨State.mk hd ((((hp ++ [some (Node.mk v none none)]).set hp.length
        (some (Node.mk v none none))).set hp.length (some (Node.mk v none (some t)))).set t
        (some (Node.mk x (some hp.length) pm))), ?_, ?_, some hp.length, ?_⟩
    · simp [insertAtPosition, hpos1, hpos2, createNode, hk, hadv, deref, setNext, setPrev,
        load_append, load_set_if, htn, hl, bind, Except.bind]
    · simp only [List.map_append, List.map_cons, List.map_nil, List.nodup_append,
        List.nodup_cons, List.mem_cons, List.not_mem_nil, not_false_eq_true, List.nodup_nil,
        and_true, or_false]
      refine ⟨hn1, htn, ?_⟩
      intro b hb1 hb2
      simp only [List.mem_cons, List.not_mem_nil, or_false] at hb2
      rcases hb2 with e | e
      · exact hl1t b hb1 e
      · exact hl1new b hb1 e
    · refine seg_append.mpr ⟨pm, some t, ?_, ?_⟩
      · refine seg_frame (fun b hb => ?_) hs1
        simp [load_set_if, load_append, hl1t b hb, hl1new b hb]
      · refine seg_cons.mpr ⟨rfl, some hp.length, ?_, seg_cons.mpr ⟨rfl, none, ?_, ?_⟩⟩
        · simp [load_set_if, load_append, ht, ht1, htn]
        · simp [load_set_if, load_append, Ne.symm htn]
        · simp [seg_nil]
  | cons q l2 =>
    obtain ⟨b, y⟩ := q
    obtain ⟨hc, nx2, hl2, hrest2⟩ := seg_cons.mp hrest
    subst hc
    have hb := load_lt hl2
    have hbn : b ≠ hp.length := Nat.ne_of_lt hb
    have hb1 : b < hp.length + 1 := Nat.lt_succ_of_lt hb
    simp only [List.map_cons, List.nodup_cons, List.mem_cons, not_or] at hn2 ht2 hfresh
    have hbt : b ≠ t := fun e => ht2.1 e.symm
    refine ⟨State.mk hd (((((hp ++ [some (Node.mk v none none)]).set hp.length
        (some (Node.mk v (some b) none))).set hp.length
        (some (Node.mk v (some b) (some t)))).set b
        (some (Node.mk y nx2 (some hp.length)))).set t
        (some (Node.mk x (some hp.length) pm))), ?_, ?_, p1, ?_⟩
    · simp [insertAtPosition, hpos1, hpos2, createNode, hk, hadv, deref, setNext, setPrev,
        load_append, load_set_if, htn, hbn, hbt, Ne.symm hbt, hl, hl2, bind, Except.bind]
    · simp only [List.map_append, List.map_cons, List.nodup_append, List.nodup_cons,
        List.mem_cons, not_or]
      refine ⟨hn1, ⟨⟨htn, Ne.symm hbt, ht2.2⟩, ⟨Ne.symm hbn, hfresh.2.2.2⟩, hn2⟩, ?_⟩
      intro c hc1 hc2
      simp only [List.mem_cons] at hc2
      rcases hc2 with e | e | e | e
      · exact hl1t c hc1 e
      · exact hl1new c hc1 e
      · exact hl1l2 c hc1 (by simp [e])
      · exact hl1l2 c hc1 (by simp only [List.map_cons, List.mem_cons]; exact Or.inr e)
    · refine seg_append.mpr ⟨pm, some t, ?_, ?_⟩
      · refine seg_frame (fun c hc => ?_) hs1
        have hcb : c ≠ b := fun e => hl1l2 c hc (by simp [e])
        simp [load_set_if, load_append, hl1t c hc, hl1new c hc, hcb]
      · refine seg_cons.mpr ⟨rfl, some hp.length, ?_, seg_cons.mpr ⟨rfl, some b, ?_,
          seg_cons.mpr ⟨rfl, nx2, ?_, ?_⟩⟩⟩
        · simp [load_set_if, load_append, ht, ht1, htn, Ne.symm hbt]
        · simp [load_set_if, load_append, Ne.symm htn, Ne.symm hbn]
        · simp [load_set_if, load_append, hbt, hbn, hb, hb1]
        · refine seg_frame (fun c hc => ?_) hrest2
          have hc1 : c ≠ b := fun e => hn2.1 (e ▸ hc)
          have hc2 : c ≠ t := fun e => ht2.2 (e ▸ hc)
          have hc3 : c ≠ hp.length := fun e => hfresh.2.2.2 (e ▸ hc)
          simp [load_set_if, load_append, hc1, hc2, hc3]

/-- Unlinking the node at address `t` that follows the node at `q`, reached after `l1`. -/
theorem deleteAfter_rep {hd : Ptr} {hp : Heap} {l1 l2 : List (Nat × Int)} {q t : Nat}
    {z x : Int} (hr : Rep ⟨hd, hp⟩ (l1 ++ (q, z) :: (t, x) :: l2)) :
    ∃ s1, deleteAtPosition ⟨hd, hp⟩ ((l1.length : Int) + 2) = .ok (.done, s1) ∧
      Rep s1 (l1 ++ (q, z) :: l2) := by
  obtain ⟨hnd, p1, hs⟩ := hr
  simp only at hs
  obtain ⟨pq, cq, hs1, hs2⟩ := seg_append.mp hs
  obtain ⟨hc, nxq, hlq, hs3⟩ := seg_cons.mp hs2
  subst hc
  obtain ⟨hc, nx, hl, hrest⟩ := seg_cons.mp hs3
  subst hc
  have ht := load_lt hl
  have hq := load_lt hlq
  have hhd : ∃ a0, hd = some a0 := by
    cases l1 with
    | nil => exact ⟨q, (seg_nil.mp hs1).2.symm⟩
    | cons r l1 => exact ⟨r.1, (seg_cons.mp hs1).1⟩
  obtain ⟨a0, rfl⟩ := hhd
  have hpos : ¬ ((l1.length : Int) + 2 = 1) := by omega
  have hk : ((l1.length : Int) + 2 - 1).toNat = l1.length + 1 := by omega
  have hadv : advance hp (l1.length + 1) (some a0) = .ok (some t) := by
    have := advance_seg (seg_append.mpr ⟨pq, some q, hs1,
      seg_cons.mpr ⟨rfl, some t, hlq, seg_nil.mpr ⟨rfl, rfl⟩⟩⟩)
    simpa using this
  simp only [List.map_append, List.map_cons, List.nodup_append, List.nodup_cons,
    List.mem_append, List.mem_cons, not_or] at hnd
  obtain ⟨hn1, ⟨⟨hqt, hq2⟩, ht2, hn2⟩, hdis⟩ := hnd
  have hl1q : ∀ b ∈ l1.map Prod.fst, b ≠ q := fun b hb e => hdis hb (by simp [e])
  have hl1t : ∀ b ∈ l1.map Prod.fst, b ≠ t := fun b hb e => hdis hb (by simp [e])
  have hl1l2 : ∀ b ∈ l1.map Prod.fst, b ∉ l2.map Prod.fst := fun b hb hb2 =>
    hdis hb (by simp only [List.mem_cons]; exact Or.inr (Or.inr hb2))
  cases l2 with
  | nil =>
    obtain ⟨hp1, hc⟩ := seg_nil.mp hrest
    subst hc
    refine ⟨State.mk (some a0) ((hp.set q (some (Node.mk z none pq))).set t none),
      ?_, ?_, some q, ?_⟩
    · simp [deleteAtPosition, hpos, hk, hadv, deref, setNext, free, load_set_if, hl, hlq,
        Ne.symm hqt, bind, Except.bind]
    · simp only [List.map_append, List.map_cons, List.map_nil, List.nodup_append,
        List.nodup_cons, List.not_mem_nil, not_false_eq_true, List.nodup_nil, and_true,
        true_and]
      refine ⟨hn1, ?_⟩
      intro b hb1 hb2
      simp only [List.mem_cons, List.not_mem_nil, or_false] at hb2
      exact hl1q b hb1 hb2
    · refine seg_append.mpr ⟨pq, some q, ?_, seg_cons.mpr ⟨rfl, none, ?_, by simp [seg_nil]⟩⟩
      · refine seg_frame (fun b hb => ?_) hs1
        simp [load_set_if, hl1q b hb, hl1t b hb]
      · simp [load_set_if, hqt, hq]
  | cons r l2 =>
    obtain ⟨b, y⟩ := r
    obtain ⟨hc, nx2, hl2, hrest2⟩ := seg_cons.mp hrest
    subst hc
    have hb := load_lt hl2
    simp only [List.map_cons, List.nodup_cons, List.mem_cons, not_or] at hn2 ht2 hq2
    have hbt : b ≠ t := fun e => ht2.1 e.symm
    have hbq : b ≠ q := fun e => hq2.1 e.symm
    refine ⟨State.mk (some a0) (((hp.set b (some (Node.mk y nx2 (some q)))).set q
        (some (Node.mk z (some b) pq))).set t none), ?_, ?_, p1, ?_⟩
    · simp [deleteAtPosition, hpos, hk, hadv, deref, setNext, setPrev, free, load_set_if, hl,
        hlq, hl2, Ne.symm hqt, hqt, hbt, Ne.symm hbt, hbq, Ne.symm hbq, bind, Except.bind]
    · simp only [List.map_append, List.map_cons, List.nodup_append, List.nodup_cons,
        List.mem_cons, not_or]
      refine ⟨hn1, ⟨⟨hq2.1, hq2.2⟩, hn2⟩, ?_⟩
      intro c hc1 hc2
      simp only [List.mem_cons] at hc2
      rcases hc2 with e | e | e
      · exact hl1q c hc1 e
      · exact hl1l2 c hc1 (by simp [e])
      · exact hl1l2 c hc1 (by simp only [List.map_cons, List.mem_cons]; exact Or.inr e)
    · refine seg_append.mpr ⟨pq, some q, ?_, seg_cons.mpr ⟨rfl, some b, ?_,
        seg_cons.mpr ⟨rfl, nx2, ?_, ?_⟩⟩⟩
      · refine seg_frame (fun c hc => ?_) hs1
        have hcb : c ≠ b := fun e => hl1l2 c hc (by simp [e])
        simp [load_set_if, hl1q c hc, hl1t c hc, hcb]
      · simp [load_set_if, hqt, hq]
      · simp [load_set_if, hbt, hbq, hb]
      · refine seg_frame (fun c hc => ?_) hrest2
        have hc1 : c ≠ b := fun e => hn2.1 (e ▸ hc)
        have hc2 : c ≠ t := fun e => ht2.2 (e ▸ hc)
        have hc3 : c ≠ q := fun e => hq2.2 (e ▸ hc)
        simp [load_set_if, hc1, hc2, hc3]

/-- A non-empty segment starts at an address. -/
theorem seg_start {h : Heap} {ns : List (Nat × Int)} {p c p1 c1 : Ptr} (hne : ns ≠ [])
    (hs : Seg h p c ns p1 c1) : ∃ a, c = some a := by
  cases ns with
  | nil => exact absurd rfl hne
  | cons q ns => exact ⟨q.1, (seg_cons.mp hs).1⟩

theorem insertAtEnd_rep {s : State} {ns : List (Nat × Int)} (v : Int) (hr : Rep s ns) :
    ∃ s1, insertAtEnd s v = .ok (.done, s1) ∧ Rep s1 (ns ++ [(s.heap.length, v)]) := by
  obtain ⟨hd, hp⟩ := s
  obtain ⟨hnd, p1, hs⟩ := hr
  simp only at hs
  have hfresh := seg_fresh hs
  have hlen := seg_length_le hnd hs
  rcases List.eq_nil_or_concat ns with rfl | ⟨l, ⟨t, x⟩, rfl⟩
  · obtain ⟨_, hc⟩ := seg_nil.mp hs
    subst hc
    refine ⟨State.mk (some hp.length) (hp ++ [some (Node.mk v none none)]),
      by simp [insertAtEnd, createNode], by simp, some hp.length, ?_⟩
    simp [seg_cons, seg_nil, load_append]
  · simp only [List.concat_eq_append] at hs hnd hfresh hlen ⊢
    obtain ⟨a0, rfl⟩ := seg_start (by simp) hs
    have hs0 : Seg (hp ++ [some (Node.mk v none none)]) none (some a0) (l ++ [(t, x)]) p1 none :=
      seg_frame (fun b hb => by
        have : b ≠ hp.length := fun e => hfresh (e ▸ hb)
        simp [load_append, this]) hs
    have hlast : lastNode (hp ++ [some (Node.mk v none none)]) (hp.length + 1) a0 = .ok t :=
      lastNode_seg hs0 (by simp only [List.length_append, List.length_singleton] at hlen; omega)
    obtain ⟨pm, cm, hs1, hs2⟩ := seg_append.mp hs
    obtain ⟨hc, nx, hl, hrest⟩ := seg_cons.mp hs2
    subst hc
    obtain ⟨hp1, hc⟩ := seg_nil.mp hrest
    subst hc
    have ht := load_lt hl
    have htn : t ≠ hp.length := Nat.ne_of_lt ht
    have ht1 : t < hp.length + 1 := Nat.lt_succ_of_lt ht
    simp only [List.map_append, List.map_cons, List.map_nil, List.nodup_append,
      List.mem_append, List.mem_singleton, not_or] at hnd hfresh
    obtain ⟨hn1, _, hdis⟩ := hnd
    have hlt : ∀ b ∈ l.map Prod.fst, b ≠ t := fun b hb e => hdis hb (by simp [e])
    have hlnew : ∀ b ∈ l.map Prod.fst, b ≠ hp.length := fun b hb e => hfresh.1 (e ▸ hb)
    refine ⟨State.mk (some a0) (((hp ++ [some (Node.mk v none none)]).set t
        (some (Node.mk x (some hp.length) pm))).set hp.length
        (some (Node.mk v none (some t)))), ?_, ?_, some hp.length, ?_⟩
    · simp [insertAtEnd, createNode, hlast, setNext, setPrev, load_append, load_set_if, htn,
        Ne.symm htn, hl, bind, Except.bind]
    · simp only [List.append_assoc, List.singleton_append, List.map_append, List.map_cons,
        List.map_nil, List.nodup_append, List.nodup_cons, List.mem_cons, List.not_mem_nil,
        or_false, not_false_eq_true, List.nodup_nil, and_true]
      refine ⟨hn1, htn, ?_⟩
      intro b hb1 hb2
      simp only [List.mem_cons, List.not_mem_nil, or_false] at hb2
      rcases hb2 with e | e
      · exact hlt b hb1 e
      · exact hlnew b hb1 e
    · rw [List.append_assoc]
      refine seg_append.mpr ⟨pm, some t, ?_, ?_⟩
      · refine seg_frame (fun b hb => ?_) hs1
        simp [load_set_if, load_append, hlt b hb, hlnew b hb]
      · refine seg_cons.mpr ⟨rfl, some hp.length, ?_, seg_cons.mpr ⟨rfl, none, ?_, ?_⟩⟩
        · simp [load_set_if, load_append, htn, ht]
        · simp [load_set_if, load_append]
        · simp [seg_nil]

theorem deleteAtEnd_rep {s : State} {ns : List (Nat × Int)} {t : Nat} {x : Int}
    (hr : Rep s (ns ++ [(t, x)])) :
    ∃ s1, deleteAtEnd s = .ok (.done, s1) ∧ Rep s1 ns := by
  obtain ⟨hd, hp⟩ := s
  obtain ⟨hnd, p1, hs⟩ := hr
  simp only at hs
  have hlen := seg_length_le hnd hs
  obtain ⟨a0, rfl⟩ := seg_start (by simp) hs
  rcases List.eq_nil_or_concat ns with rfl | ⟨l, ⟨q, z⟩, rfl⟩
  · simp only [List.nil_append] at hs
    obtain ⟨hc, nx, hl, hrest⟩ := seg_cons.mp hs
    simp only [Option.some.injEq] at hc
    subst hc
    obtain ⟨_, hc⟩ := seg_nil.mp hrest
    subst hc
    refine ⟨State.mk none (hp.set a0 none), ?_, by simp, none, by simp [seg_nil]⟩
    simp [deleteAtEnd, deref, free, hl, bind, Except.bind]
  · simp only [List.concat_eq_append, List.append_assoc, List.singleton_append] at hs hnd hlen ⊢
    have hlast : lastNode hp hp.length a0 = .ok t := by
      have hs' : Seg hp none (some a0) ((l ++ [(q, z)]) ++ [(t, x)]) p1 none := by
        simpa using hs
      exact lastNode_seg hs' (by
        simp only [List.length_append, List.length_cons, List.length_nil] at hlen ⊢; omega)
    obtain ⟨pq, cq, hs1, hs2⟩ := seg_append.mp hs
    obtain ⟨hc, nxq, hlq, hs3⟩ := seg_cons.mp hs2
    subst hc
    obtain ⟨hc, nx, hl, hrest⟩ := seg_cons.mp hs3
    subst hc
    obtain ⟨hp1, hc⟩ := seg_nil.mp hrest
    subst hc
    have hq := load_lt hlq
    have hnext : ∃ n0 b0, load hp a0 = some n0 ∧ n0.next = some b0 := by
      cases l with
      | nil =>
        obtain ⟨_, hc⟩ := seg_nil.mp hs1
        simp only [Option.some.injEq] at hc
        subst hc
        exact ⟨_, t, hlq, rfl⟩
      | cons r l =>
        obtain ⟨a, w⟩ := r
        obtain ⟨hc, nxa, hla, hra⟩ := seg_cons.mp hs1
        simp only [Option.some.injEq] at hc
        subst hc
        have hsa : Seg hp (some a0) nxa (l ++ [(q, z)]) (some q) (some t) :=
          seg_append.mpr ⟨pq, some q, hra, seg_cons.mpr ⟨rfl, some t, hlq, seg_nil.mpr ⟨rfl, rfl⟩⟩⟩
        obtain ⟨b0, hb0⟩ := seg_start (by simp) hsa
        exact ⟨_, b0, hla, hb0⟩
    obtain ⟨n0, b0, hl0, hn0⟩ := hnext
    simp only [List.map_append, List.map_cons, List.map_nil, List.nodup_append,
      List.nodup_cons, List.mem_cons, List.not_mem_nil, or_false, not_false_eq_true,
      List.nodup_nil, and_true] at hnd
    obtain ⟨hn1, hqt, hdis⟩ := hnd
    have hlq1 : ∀ b ∈ l.map Prod.fst, b ≠ q := fun b hb e => hdis hb (by simp [e])
    have hlt1 : ∀ b ∈ l.map Prod.fst, b ≠ t := fun b hb e => hdis hb (by simp [e])
    refine ⟨State.mk (some a0) ((hp.set q (some (Node.mk z none pq))).set t none),
      ?_, ?_, some q, ?_⟩
    · simp [deleteAtEnd, deref, setNext, free, hl0, hn0, hlast, hl, hlq, load_set_if,
        Ne.symm hqt, bind, Except.bind]
    · simp only [List.map_append, List.map_cons, List.map_nil, List.nodup_append,
        List.nodup_cons, List.not_mem_nil, not_false_eq_true, List.nodup_nil, and_true,
        true_and]
      refine ⟨hn1, ?_⟩
      intro b hb1 hb2
      simp only [List.mem_cons, List.not_mem_nil, or_false] at hb2
      exact hlq1 b hb1 hb2
    · refine seg_append.mpr ⟨pq, some q, ?_, seg_cons.mpr ⟨rfl, none, ?_, by simp [seg_nil]⟩⟩
      · refine seg_frame (fun b hb => ?_) hs1
        simp [load_set_if, hlq1 b hb, hlt1 b hb]
      · simp [load_set_if, hqt, hq]

/-! ## Positions -/

/-- Inserting at the position that follows the stretch `l1`. -/
theorem insertAtPosition_split {s : State} {l1 l2 : List (Nat × Int)} (v : Int)
    (hr : Rep s (l1 ++ l2)) :
    ∃ s1, insertAtPosition s v ((l1.length : Int) + 1) = .ok (.done, s1) ∧
      Rep s1 (l1 ++ (s.heap.length, v) :: l2) := by
  rcases List.eq_nil_or_concat l1 with rfl | ⟨l0, ⟨t, x⟩, rfl⟩
  · obtain ⟨s1, h1, h2⟩ := insertAtBeginning_rep v hr
    exact ⟨s1, by simpa [insertAtPosition] using h1, h2⟩
  · obtain ⟨hd, hp⟩ := s
    simp only [List.concat_eq_append, List.append_assoc, List.singleton_append] at hr ⊢
    obtain ⟨s1, h1, h2⟩ := insertAfter_rep v hr
    refine ⟨s1, ?_, h2⟩
    have he : (((l0 ++ [(t, x)]).length : Nat) : Int) + 1 = (l0.length : Int) + 2 := by
      simp only [List.length_append, List.length_singleton]; push_cast; ring
    rw [he]; exact h1

/-- Deleting at the position of the node that follows the stretch `l1`. -/
theorem deleteAtPosition_split {s : State} {l1 l2 : List (Nat × Int)} {t : Nat} {x : Int}
    (hr : Rep s (l1 ++ (t, x) :: l2)) :
    ∃ s1, deleteAtPosition s ((l1.length : Int) + 1) = .ok (.done, s1) ∧ Rep s1 (l1 ++ l2) := by
  rcases List.eq_nil_or_concat l1 with rfl | ⟨l0, ⟨q, z⟩, rfl⟩
  · obtain ⟨s1, h1, h2⟩ := deleteAtBeginning_rep hr
    have hh : s.head = some t := (seg_cons.mp hr.2.choose_spec).1
    exact ⟨s1, by simpa [deleteAtPosition, hh] using h1, h2⟩
  · obtain ⟨hd, hp⟩ := s
    simp only [List.concat_eq_append, List.append_assoc, List.singleton_append] at hr ⊢
    obtain ⟨s1, h1, h2⟩ := deleteAfter_rep hr
    refine ⟨s1, ?_, h2⟩
    have he : (((l0 ++ [(q, z)]).length : Nat) : Int) + 1 = (l0.length : Int) + 2 := by
      simp only [List.length_append, List.length_singleton]; push_cast; ring
    rw [he]; exact h1

theorem insertAtPosition_low (s : State) (v p : Int) (hp : p < 1) :
    insertAtPosition s v p = .ok (.invalidPosition, s) := by
  simp [insertAtPosition, hp]

/-- Past one-after-the-end the new node is created and released again. -/
theorem insertAtPosition_high {s : State} {ns : List (Nat × Int)} (v : Int) {p : Int}
    (hr : Rep s ns) (hp : (ns.length : Int) + 1 < p) :
    insertAtPosition s v p = .ok (.positionOutOfRange,
      State.mk s.head ((s.heap ++ [some (Node.mk v none none)]).set s.heap.length none)) := by
  obtain ⟨hd, hh⟩ := s
  obtain ⟨hnd, p1, hs⟩ := hr
  simp only at hs
  have hfresh := seg_fresh hs
  have hs0 : Seg (hh ++ [some (Node.mk v none none)]) none hd ns p1 none :=
    seg_frame (fun b hb => by
      have : b ≠ hh.length := fun e => hfresh (e ▸ hb)
      simp [load_append, this]) hs
  have hadv := advance_overrun hs0 (k := (p - 1 - 1).toNat) (by omega)
  have hpos1 : ¬ p < 1 := by omega
  have hpos2 : ¬ p = 1 := by omega
  simp only [insertAtPosition, hpos1, hpos2, if_false, createNode, hadv]
  simp [free, load_append, bind, Except.bind]

/-- Creating a node and releasing it again leaves every cell as it was. -/
theorem load_create_release (h : Heap) (c : Option Node) (a : Nat) :
    load ((h ++ [c]).set h.length none) a = load h a := by
  by_cases ha : a = h.length
  · subst ha; simp [load_set_if, load_length, load_append]
  · simp [load_set_if, load_append, ha]

theorem deleteAtPosition_high {s : State} {ns : List (Nat × Int)} {p : Int}
    (hr : Rep s ns) (hne : ns ≠ []) (hp : (ns.length : Int) < p) :
    deleteAtPosition s p = .ok (.positionOutOfRange, s) := by
  obtain ⟨hd, hh⟩ := s
  obtain ⟨hnd, p1, hs⟩ := hr
  simp only at hs
  cases ns with
  | nil => exact absurd rfl hne
  | cons q ns =>
    have hhd : hd = some q.1 := (seg_cons.mp hs).1
    subst hhd
    have hadv := advance_overrun hs (k := (p - 1).toNat) (by simp only [List.length_cons] at hp ⊢; omega)
    have hpos : ¬ p = 1 := by simp only [List.length_cons] at hp; omega
    simp only [deleteAtPosition, hpos, if_false, hadv]

theorem deleteAtPosition_empty (h : Heap) (p : Int) :
    deleteAtPosition ⟨none, h⟩ p = .ok (.emptyList, ⟨none, h⟩) := by
  simp [deleteAtPosition]

/-- Inserting at a position between `1` and one past the end. -/
theorem insertAtPosition_ok {s : State} {ns : List (Nat × Int)} (v : Int) {p : Int}
    (hr : Rep s ns) (h1 : 1 ≤ p) (h2 : p ≤ (ns.length : Int) + 1) :
    ∃ s1, insertAtPosition s v p = .ok (.done, s1) ∧
      Rep s1 (ns.take (p - 1).toNat ++ (s.heap.length, v) :: ns.drop (p - 1).toNat) := by
  have hk : (p - 1).toNat ≤ ns.length := by omega
  have hr1 : Rep s (ns.take (p - 1).toNat ++ ns.drop (p - 1).toNat) := by
    rw [List.take_append_drop]; exact hr
  obtain ⟨s1, hi, hr2⟩ := insertAtPosition_split v hr1
  have hp : ((ns.take (p - 1).toNat).length : Int) + 1 = p := by
    rw [List.length_take, Nat.min_eq_left hk]; omega
  rw [hp] at hi
  exact ⟨s1, hi, hr2⟩

/-- Deleting at a position between `1` and the length. -/
theorem deleteAtPosition_ok {s : State} {ns : List (Nat × Int)} {p : Int}
    (hr : Rep s ns) (h1 : 1 ≤ p) (h2 : p ≤ (ns.length : Int)) :
    ∃ s1, deleteAtPosition s p = .ok (.done, s1) ∧ Rep s1 (ns.eraseIdx (p - 1).toNat) := by
  have hk : (p - 1).toNat < ns.length := by omega
  have hr1 : Rep s (ns.take (p - 1).toNat ++
      ((ns[(p - 1).toNat]).1, (ns[(p - 1).toNat]).2) :: ns.drop ((p - 1).toNat + 1)) := by
    rw [Prod.mk.eta, ← List.drop_eq_getElem_cons hk, List.take_append_drop]; exact hr
  obtain ⟨s1, hd, hr2⟩ := deleteAtPosition_split hr1
  have hp : ((ns.take (p - 1).toNat).length : Int) + 1 = p := by
    rw [List.length_take, Nat.min_eq_left (Nat.le_of_lt hk)]; omega
  rw [hp] at hd
  rw [← List.eraseIdx_eq_take_drop_succ] at hr2
  exact ⟨s1, hd, hr2⟩

/-! ## Traversal -/

theorem rep_printList {s : State} {ns : List (Nat × Int)} (hr : Rep s ns) :
    printList s = .ok (ns.map Prod.snd) := by
  obtain ⟨hnd, p1, hs⟩ := hr
  exact printLoop_seg hs (seg_length_le hnd hs)

theorem wf_values {s : State} {xs : List Int} (hwf : WF s) (hxs : printList s = .ok xs) :
    ∃ ns, Rep s ns ∧ ns.map Prod.snd = xs := by
  obtain ⟨ns, hr⟩ := hwf
  refine ⟨ns, hr, ?_⟩
  have := rep_printList hr
  rw [hxs] at this
  exact (Except.ok.inj this).symm

theorem rep_init : Rep init [] := ⟨by simp, none, by simp [init, seg_nil]⟩

theorem wf_init : WF init := ⟨[], rep_init⟩

theorem rep_head_none {s : State} {ns : List (Nat × Int)} (hr : Rep s ns) :
    s.head = none ↔ ns = [] := by
  obtain ⟨_, p1, hs⟩ := hr
  cases ns with
  | nil => simpa using (seg_nil.mp hs).2.symm
  | cons q ns => simp [(seg_cons.mp hs).1]

theorem wf_twoNodes : WF twoNodes := ⟨[(0, 1), (1, 2)], by decide, some 1, by decide⟩

theorem values_length {ns : List (Nat × Int)} {xs : List Int} (h : ns.map Prod.snd = xs) :
    xs.length = ns.length := by
  rw [← h, List.length_map]

/-! ## Sequences of operations with positions of at least `1` -/

theorem rep_create_release {s : State} {ns : List (Nat × Int)} (c : Option Node)
    (hr : Rep s ns) : Rep ⟨s.head, (s.heap ++ [c]).set s.heap.length none⟩ ns := by
  obtain ⟨hnd, p1, hs⟩ := hr
  exact ⟨hnd, p1, seg_frame (fun a _ => load_create_release s.heap c a) hs⟩

/-- One operation on a represented list returns, the result is again a represented
list, and its length moved by one exactly when an insert or delete reported nothing. -/
theorem step_rep {s : State} {ns : List (Nat × Int)} (op : Op) (hr : Rep s ns)
    (hg : op.guarded) :
    ∃ r s1 ns1, step s op = .ok (r, s1) ∧ Rep s1 ns1 ∧
      ns1.length + deletesDone [(op, r)] = ns.length + insertsDone [(op, r)] := by
  cases op with
  | insertAtBeginning d =>
    obtain ⟨s1, h1, h2⟩ := insertAtBeginning_rep d hr
    exact ⟨.done, s1, _, h1, h2, by simp [insertsDone, deletesDone]⟩
  | insertAtEnd d =>
    obtain ⟨s1, h1, h2⟩ := insertAtEnd_rep d hr
    exact ⟨.done, s1, _, h1, h2, by simp [insertsDone, deletesDone]⟩
  | insertAtPosition d p =>
    by_cases hlow : p < 1
    · exact ⟨.invalidPosition, s, ns, insertAtPosition_low s d p hlow, hr,
        by simp [insertsDone, deletesDone]⟩
    · by_cases hhigh : (ns.length : Int) + 1 < p
      · exact ⟨.positionOutOfRange, _, ns, insertAtPosition_high d hr hhigh,
          rep_create_release _ hr, by simp [insertsDone, deletesDone]⟩
      · have hk : (p - 1).toNat ≤ ns.length := by omega
        have hr1 : Rep s (ns.take (p - 1).toNat ++ ns.drop (p - 1).toNat) := by
          rw [List.take_append_drop]; exact hr
        obtain ⟨s1, hi, hr2⟩ := insertAtPosition_split d hr1
        have hp : ((ns.take (p - 1).toNat).length : Int) + 1 = p := by
          rw [List.length_take, Nat.min_eq_left hk]; omega
        rw [hp] at hi
        refine ⟨.done, s1, _, hi, hr2, ?_⟩
        simp only [insertsDone, deletesDone, List.length_append, List.length_cons,
          List.length_take, List.length_drop]
        omega
  | deleteAtBeginning =>
    cases ns with
    | nil =>
      have hh := (rep_head_none hr).mpr rfl
      refine ⟨.emptyList, s, [], ?_, hr, by simp [insertsDone, deletesDone]⟩
      simp [step, deleteAtBeginning, hh]
    | cons q ns =>
      obtain ⟨s1, h1, h2⟩ := deleteAtBeginning_rep (a := q.1) (x := q.2) hr
      exact ⟨.done, s1, ns, h1, h2, by simp [insertsDone, deletesDone]⟩
  | deleteAtEnd =>
    rcases List.eq_nil_or_concat ns with rfl | ⟨l, ⟨t, x⟩, rfl⟩
    · have hh := (rep_head_none hr).mpr rfl
      refine ⟨.emptyList, s, [], ?_, hr, by simp [insertsDone, deletesDone]⟩
      simp [step, deleteAtEnd, hh]
    · rw [List.concat_eq_append] at hr ⊢
      obtain ⟨s1, h1, h2⟩ := deleteAtEnd_rep hr
      exact ⟨.done, s1, l, h1, h2, by simp [insertsDone, deletesDone]⟩
  | deleteAtPosition p =>
    have hp1 : 1 ≤ p := hg
    by_cases hne : ns = []
    · subst hne
      have hh := (rep_head_none hr).mpr rfl
      refine ⟨.emptyList, s, [], ?_, hr, by simp [insertsDone, deletesDone]⟩
      simp [step, deleteAtPosition, hh]
    · by_cases hhigh : (ns.length : Int) < p
      · exact ⟨.positionOutOfRange, s, ns, deleteAtPosition_high hr hne hhigh, hr,
          by simp [insertsDone, deletesDone]⟩
      · have hk : (p - 1).toNat < ns.length := by omega
        have hr1 : Rep s (ns.take (p - 1).toNat ++
            ((ns[(p - 1).toNat]).1, (ns[(p - 1).toNat]).2) :: ns.drop ((p - 1).toNat + 1)) := by
          rw [Prod.mk.eta, ← List.drop_eq_getElem_cons hk, List.take_append_drop]; exact hr
        obtain ⟨s1, hd, hr2⟩ := deleteAtPosition_split hr1
        have hp : ((ns.take (p - 1).toNat).length : Int) + 1 = p := by
          rw [List.length_take, Nat.min_eq_left (Nat.le_of_lt hk)]; omega
        rw [hp] at hd
        refine ⟨.done, s1, _, hd, hr2, ?_⟩
        simp only [insertsDone, deletesDone, List.length_append, List.length_take,
          List.length_drop]
        omega

theorem insertsDone_cons (op : Op) (r : Report) (l : List (Op × Report)) :
    insertsDone ((op, r) :: l) = insertsDone [(op, r)] + insertsDone l := by
  cases op <;> cases r <;> simp [insertsDone] <;> omega

theorem deletesDone_cons (op : Op) (r : Report) (l : List (Op × Report)) :
    deletesDone ((op, r) :: l) = deletesDone [(op, r)] + deletesDone l := by
  cases op <;> cases r <;> simp [deletesDone] <;> omega

/-- A sequence of operations whose delete positions are at least `1`, run on a
well-formed list, returns a well-formed list whose length is the initial length
plus the inserts minus the deletes that reported nothing. -/
theorem run_rep : ∀ (ops : List Op) {s : State} {ns : List (Nat × Int)}, Rep s ns →
    (∀ op ∈ ops, op.guarded) →
    ∃ rs s1 ns1, run s ops = .ok (rs, s1) ∧ Rep s1 ns1 ∧ rs.length = ops.length ∧
      ns1.length + deletesDone (ops.zip rs) = ns.length + insertsDone (ops.zip rs)
  | [], s, ns, hr, _ => ⟨[], s, ns, rfl, hr, rfl, by simp [insertsDone, deletesDone]⟩
  | op :: ops, s, ns, hr, hg => by
    obtain ⟨r, s1, ns1, h1, hr1, hl1⟩ := step_rep op hr (hg op (by simp))
    obtain ⟨rs, s2, ns2, h2, hr2, hlen, hl2⟩ :=
      run_rep ops hr1 (fun o ho => hg o (by simp [ho]))
    refine ⟨r :: rs, s2, ns2, by simp [run, h1, h2], hr2, by simp [hlen], ?_⟩
    rw [List.zip_cons_cons, insertsDone_cons, deletesDone_cons]
    omega

/-! ## The claims -/

/-- C1 (violated by the code): the link invariants do not survive every sequence of
operations. From the empty list, `insertAtEnd(1)`, `insertAtEnd(2)`,
`deleteAtPosition(0)` all return without a message, and afterwards `head` still holds
address `0`, whose node has been released, while the second node's `prev` is `NULL`:
the state is not a well-formed list. -/
theorem deleteAtPosition_zero_breaks_links :
    run init [.insertAtEnd 1, .insertAtEnd 2, .deleteAtPosition 0] =
        .ok ([.done, .done, .done], ⟨some 0, [none, some ⟨2, none, none⟩]⟩) ∧
      load [none, some ⟨2, none, none⟩] 0 = none ∧
      ¬ WF ⟨some 0, [none, some ⟨2, none, none⟩]⟩ := by
  refine ⟨rfl, rfl, ?_⟩
  rintro ⟨ns, _, p1, hs⟩
  cases ns with
  | nil => exact absurd (seg_nil.mp hs).2 (by simp)
  | cons q ns =>
    obtain ⟨a, x⟩ := q
    obtain ⟨hc, nx, hl, _⟩ := seg_cons.mp hs
    simp only [Option.some.injEq] at hc
    subst hc
    exact absurd hl (by simp [load])

/-- C2: on a well-formed list with values `xs`, `insertAtPosition(v, p)` with
`1 ≤ p ≤ length + 1` returns without a message and the list then holds the first
`p - 1` values of `xs`, then `v`, then the remaining values of `xs`. -/
theorem insertAtPosition_values (s : State) (xs : List Int) (v p : Int) (hwf : WF s)
    (hxs : printList s = .ok xs) (h1 : 1 ≤ p) (h2 : p ≤ (xs.length : Int) + 1) :
    ∃ s1, insertAtPosition s v p = .ok (.done, s1) ∧ WF s1 ∧
      printList s1 = .ok (xs.take (p - 1).toNat ++ v :: xs.drop (p - 1).toNat) := by
  obtain ⟨ns, hr, hv⟩ := wf_values hwf hxs
  have hlen := values_length hv
  have hk : (p - 1).toNat ≤ ns.length := by omega
  have hr1 : Rep s (ns.take (p - 1).toNat ++ ns.drop (p - 1).toNat) := by
    rw [List.take_append_drop]; exact hr
  obtain ⟨s1, hi, hr2⟩ := insertAtPosition_split v hr1
  have hp : ((ns.take (p - 1).toNat).length : Int) + 1 = p := by
    rw [List.length_take, Nat.min_eq_left hk]; omega
  rw [hp] at hi
  refine ⟨s1, hi, ⟨_, hr2⟩, ?_⟩
  rw [rep_printList hr2, ← hv]
  simp [List.map_take, List.map_drop]

/-- Witness of C2: inserting `9` at position `2` into the list `1, 2`. -/
theorem insertAtPosition_values_witness :
    WF twoNodes ∧ printList twoNodes = .ok [1, 2] ∧
      ∃ s1, insertAtPosition twoNodes 9 2 = .ok (.done, s1) ∧ WF s1 ∧
        printList s1 = .ok ([1, 2].take ((2 : Int) - 1).toNat ++
          9 :: [1, 2].drop ((2 : Int) - 1).toNat) :=
  ⟨wf_twoNodes, rfl,
    insertAtPosition_values twoNodes [1, 2] 9 2 wf_twoNodes rfl (by decide) (by decide)⟩

/-- C3: on a well-formed list of length `n`, `insertAtPosition(v, p)` returns; it
reports invalid-position exactly when `p < 1` and position-out-of-range exactly when
`p > n + 1`, and whenever it reports either, `head` and the content of every heap
cell are as before the call. In particular on the empty list position `0` reports
invalid-position and position `2` reports position-out-of-range. -/
theorem insertAtPosition_failures (s : State) (xs : List Int) (v p : Int) (hwf : WF s)
    (hxs : printList s = .ok xs) :
    (∃ r s1, insertAtPosition s v p = .ok (r, s1) ∧
      (r = .invalidPosition ↔ p < 1) ∧
      (r = .positionOutOfRange ↔ (xs.length : Int) + 1 < p) ∧
      (r ≠ .done → s1.head = s.head ∧ ∀ a, load s1.heap a = load s.heap a)) ∧
    insertAtPosition init v 0 = .ok (.invalidPosition, init) ∧
    ∃ s2, insertAtPosition init v 2 = .ok (.positionOutOfRange, s2) ∧
      s2.head = init.head ∧ ∀ a, load s2.heap a = load init.heap a := by
  obtain ⟨ns, hr, hv⟩ := wf_values hwf hxs
  have hlen := values_length hv
  refine ⟨?_, rfl, ⟨State.mk none [none], rfl, rfl,
    fun a => load_create_release [] (some (Node.mk v none none)) a⟩⟩
  by_cases hlow : p < 1
  · refine ⟨.invalidPosition, s, insertAtPosition_low s v p hlow, by simp [hlow], ?_,
      fun _ => ⟨rfl, fun _ => rfl⟩⟩
    constructor
    · intro h; cases h
    · intro h; omega
  · by_cases hhigh : (xs.length : Int) + 1 < p
    · refine ⟨.positionOutOfRange, _, insertAtPosition_high v hr (by omega), ?_,
        by simp [hhigh], fun _ => ⟨rfl, fun a => load_create_release _ _ a⟩⟩
      constructor
      · intro h; cases h
      · intro h; exact absurd h hlow
    · have hp1 : 1 ≤ p := by omega
      have hp2 : p ≤ (ns.length : Int) + 1 := by omega
      obtain ⟨s1, hi, _⟩ := insertAtPosition_ok v hr hp1 hp2
      refine ⟨.done, s1, hi, ?_, ?_, fun h => absurd rfl h⟩
      · constructor
        · intro h; cases h
        · intro h; exact absurd h hlow
      · constructor
        · intro h; cases h
        · intro h; exact absurd h hhigh

/-- Witness of C3: position `5` on the list `1, 2`. -/
theorem insertAtPosition_failures_witness :
    WF twoNodes ∧ printList twoNodes = .ok [1, 2] ∧
      ((∃ r s1, insertAtPosition twoNodes 9 5 = .ok (r, s1) ∧
        (r = .invalidPosition ↔ (5 : Int) < 1) ∧
        (r = .positionOutOfRange ↔ (([1, 2] : List Int).length : Int) + 1 < 5) ∧
        (r ≠ .done → s1.head = twoNodes.head ∧ ∀ a, load s1.heap a = load twoNodes.heap a)) ∧
      insertAtPosition init 9 0 = .ok (.invalidPosition, init) ∧
      ∃ s2, insertAtPosition init 9 2 = .ok (.positionOutOfRange, s2) ∧
        s2.head = init.head ∧ ∀ a, load s2.heap a = load init.heap a) :=
  ⟨wf_twoNodes, rfl, insertAtPosition_failures twoNodes [1, 2] 9 5 wf_twoNodes rfl⟩

/-- C4: on a well-formed list with values `xs`, `deleteAtPosition(p)` with
`1 ≤ p ≤ length` returns without a message and the list then holds `xs` with its
`p`-th value removed, the others in their order. -/
theorem deleteAtPosition_values (s : State) (xs : List Int) (p : Int) (hwf : WF s)
    (hxs : printList s = .ok xs) (h1 : 1 ≤ p) (h2 : p ≤ (xs.length : Int)) :
    ∃ s1, deleteAtPosition s p = .ok (.done, s1) ∧ WF s1 ∧
      printList s1 = .ok (xs.eraseIdx (p - 1).toNat) := by
  obtain ⟨ns, hr, hv⟩ := wf_values hwf hxs
  have hlen := values_length hv
  have hk : (p - 1).toNat < ns.length := by omega
  have hsplit : ns = ns.take (p - 1).toNat ++ ns[(p - 1).toNat] :: ns.drop ((p - 1).toNat + 1) := by
    rw [← List.drop_eq_getElem_cons hk, List.take_append_drop]
  have hr1 : Rep s (ns.take (p - 1).toNat ++
      ((ns[(p - 1).toNat]).1, (ns[(p - 1).toNat]).2) :: ns.drop ((p - 1).toNat + 1)) := by
    rw [← hsplit]; exact hr
  obtain ⟨s1, hd, hr2⟩ := deleteAtPosition_split hr1
  have hp : ((ns.take (p - 1).toNat).length : Int) + 1 = p := by
    rw [List.length_take, Nat.min_eq_left (Nat.le_of_lt hk)]; omega
  rw [hp] at hd
  refine ⟨s1, hd, ⟨_, hr2⟩, ?_⟩
  rw [rep_printList hr2, ← hv, List.eraseIdx_eq_take_drop_succ]
  simp [List.map_take, List.map_drop]

/-- Witness of C4: deleting position `2` of the list `1, 2`. -/
theorem deleteAtPosition_values_witness :
    WF twoNodes ∧ printList twoNodes = .ok [1, 2] ∧
      ∃ s1, deleteAtPosition twoNodes 2 = .ok (.done, s1) ∧ WF s1 ∧
        printList s1 = .ok (([1, 2] : List Int).eraseIdx ((2 : Int) - 1).toNat) :=
  ⟨wf_twoNodes, rfl,
    deleteAtPosition_values twoNodes [1, 2] 2 wf_twoNodes rfl (by decide) (by decide)⟩

/-- C5: on a well-formed non-empty list of length `n`, `deleteAtPosition(p)` with
`p > n` reports position-out-of-range and returns the state it was given. -/
theorem deleteAtPosition_out_of_range (s : State) (xs : List Int) (p : Int) (hwf : WF s)
    (hxs : printList s = .ok xs) (hne : xs ≠ []) (hp : (xs.length : Int) < p) :
    deleteAtPosition s p = .ok (.positionOutOfRange, s) := by
  obtain ⟨ns, hr, hv⟩ := wf_values hwf hxs
  have hlen := values_length hv
  refine deleteAtPosition_high hr ?_ (by omega)
  rintro rfl
  exact hne (by simpa using hv.symm)

/-- Witness of C5: position `3` on the list `1, 2`. -/
theorem deleteAtPosition_out_of_range_witness :
    WF twoNodes ∧ printList twoNodes = .ok [1, 2] ∧
      deleteAtPosition twoNodes 3 = .ok (.positionOutOfRange, twoNodes) :=
  ⟨wf_twoNodes, rfl,
    deleteAtPosition_out_of_range twoNodes [1, 2] 3 wf_twoNodes rfl (by decide) (by decide)⟩

/-- C6: on a well-formed list with values `xs`, for `1 ≤ k ≤ length + 1`,
`insertAtPosition(v, k)` followed by `deleteAtPosition(k)` both return without a
message and the list holds `xs` again. -/
theorem insert_then_delete_values (s : State) (xs : List Int) (v k : Int) (hwf : WF s)
    (hxs : printList s = .ok xs) (h1 : 1 ≤ k) (h2 : k ≤ (xs.length : Int) + 1) :
    ∃ s1 s2, insertAtPosition s v k = .ok (.done, s1) ∧
      deleteAtPosition s1 k = .ok (.done, s2) ∧ WF s2 ∧ printList s2 = .ok xs := by
  obtain ⟨ns, hr, hv⟩ := wf_values hwf hxs
  have hlen := values_length hv
  have hk : (k - 1).toNat ≤ ns.length := by omega
  have hr1 : Rep s (ns.take (k - 1).toNat ++ ns.drop (k - 1).toNat) := by
    rw [List.take_append_drop]; exact hr
  obtain ⟨s1, hi, hr2⟩ := insertAtPosition_split v hr1
  obtain ⟨s2, hd, hr3⟩ := deleteAtPosition_split hr2
  have hp : ((ns.take (k - 1).toNat).length : Int) + 1 = k := by
    rw [List.length_take, Nat.min_eq_left hk]; omega
  rw [hp] at hi hd
  rw [List.take_append_drop] at hr3
  exact ⟨s1, s2, hi, hd, ⟨_, hr3⟩, by rw [rep_printList hr3, hv]⟩

/-- Witness of C6: inserting `9` at position `3` of the list `1, 2` and deleting
position `3` again. -/
theorem insert_then_delete_values_witness :
    WF twoNodes ∧ printList twoNodes = .ok [1, 2] ∧
      ∃ s1 s2, insertAtPosition twoNodes 9 3 = .ok (.done, s1) ∧
        deleteAtPosition s1 3 = .ok (.done, s2) ∧ WF s2 ∧ printList s2 = .ok [1, 2] :=
  ⟨wf_twoNodes, rfl,
    insert_then_delete_values twoNodes [1, 2] 9 3 wf_twoNodes rfl (by decide) (by decide)⟩

/-- C7: on the empty list (`head` is `NULL`, whatever the heap holds),
`deleteAtBeginning`, `deleteAtEnd` and `deleteAtPosition(p)` for every integer `p`
report empty-list and return the state they were given. -/
theorem delete_on_empty (h : Heap) (p : Int) :
    deleteAtBeginning ⟨none, h⟩ = .ok (.emptyList, ⟨none, h⟩) ∧
      deleteAtEnd ⟨none, h⟩ = .ok (.emptyList, ⟨none, h⟩) ∧
      deleteAtPosition ⟨none, h⟩ p = .ok (.emptyList, ⟨none, h⟩) :=
  ⟨rfl, rfl, deleteAtPosition_empty h p⟩

/-- C8: on a well-formed non-empty list with values `xs`, `search(key)` reports a
position exactly when `key` occurs in `xs`; the position reported is then the
smallest 1-based index at which `xs` holds `key`, and when `key` does not occur the
report is not-found. -/
theorem search_first_match (s : State) (xs : List Int) (key : Int) (hwf : WF s)
    (hxs : printList s = .ok xs) (hne : xs ≠ []) :
    ((∃ p, search s key = .ok (.found key p)) ↔ key ∈ xs) ∧
    (key ∈ xs → ∃ i : Nat, search s key = .ok (.found key ((i : Int) + 1)) ∧
      xs[i]? = some key ∧ ∀ j, j < i → xs[j]? ≠ some key) ∧
    (key ∉ xs → search s key = .ok (.notFound key)) := by
  obtain ⟨ns, hr, hv⟩ := wf_values hwf hxs
  obtain ⟨hnd, p1, hs⟩ := hr
  have hfuel := seg_length_le hnd hs
  have hhd : ∃ a, s.head = some a := by
    cases ns with
    | nil => exact absurd (by simpa using hv.symm) hne
    | cons q ns => exact ⟨q.1, (seg_cons.mp hs).1⟩
  obtain ⟨a, ha⟩ := hhd
  have hsearch : search s key = searchLoop s.heap key s.heap.length s.head 1 := by
    simp [search, ha]
  have hhit : key ∈ xs → ∃ i : Nat, search s key = .ok (.found key ((i : Int) + 1)) ∧
      xs[i]? = some key ∧ ∀ j, j < i → xs[j]? ≠ some key := by
    intro hk
    obtain ⟨i, h1, h2, h3⟩ := @searchLoop_hit _ key _ _ _ _ _ 1 hs hfuel (hv ▸ hk)
    refine ⟨i, ?_, hv ▸ h2, hv ▸ h3⟩
    rw [hsearch, h1, add_comm]
  have hmiss : key ∉ xs → search s key = .ok (.notFound key) := by
    intro hk
    rw [hsearch]
    exact searchLoop_miss hs hfuel (hv ▸ hk)
  refine ⟨⟨?_, fun hk => ?_⟩, hhit, hmiss⟩
  · rintro ⟨p, hp⟩
    by_contra hk
    rw [hmiss hk] at hp
    cases hp
  · obtain ⟨i, h1, _⟩ := hhit hk
    exact ⟨_, h1⟩

/-- Witness of C8: searching `2` in the list `1, 2`. -/
theorem search_first_match_witness :
    WF twoNodes ∧ printList twoNodes = .ok [1, 2] ∧
      (((∃ p, search twoNodes 2 = .ok (.found 2 p)) ↔ (2 : Int) ∈ [1, 2]) ∧
      ((2 : Int) ∈ [1, 2] → ∃ i : Nat, search twoNodes 2 = .ok (.found 2 ((i : Int) + 1)) ∧
        ([1, 2] : List Int)[i]? = some 2 ∧ ∀ j, j < i → ([1, 2] : List Int)[j]? ≠ some 2) ∧
      ((2 : Int) ∉ [1, 2] → search twoNodes 2 = .ok (.notFound 2))) :=
  ⟨wf_twoNodes, rfl, search_first_match twoNodes [1, 2] 2 wf_twoNodes rfl (by decide)⟩

/-- C9 as stated fails: on the empty list `search(5)` prints "The list is empty.",
which is not the report "5 not found in the list." that it gives on the one-node
list `1`. -/
theorem search_empty_differs :
    search init 5 = .ok .emptyList ∧ search oneNode 5 = .ok (.notFound 5) ∧
      search init 5 ≠ search oneNode 5 := by
  decide

/-- C9 amended: for every key, `search(key)` on the empty list reports
empty-list, which is neither a position nor the not-found report. -/
theorem search_on_empty (h : Heap) (key : Int) :
    search ⟨none, h⟩ key = .ok .emptyList ∧
      (∀ p, search ⟨none, h⟩ key ≠ .ok (.found key p)) ∧
      search ⟨none, h⟩ key ≠ .ok (.notFound key) := by
  refine ⟨rfl, fun p hp => ?_, fun hp => ?_⟩ <;> cases hp

/-- C10 (violated by the code): from the empty list, `insertAtBeginning(7)` and
`deleteAtPosition(-3)` both return without a message, one insert and one delete, so
the traversal should produce `1 - 1 = 0` values; but `head` still designates the
released node and the traversal reads released memory instead of producing the
empty sequence. -/
theorem deleteAtPosition_negative_breaks_length :
    run init [.insertAtBeginning 7, .deleteAtPosition (-3)] =
        .ok ([.done, .done], ⟨some 0, [none]⟩) ∧
      insertsDone [(.insertAtBeginning 7, .done), (.deleteAtPosition (-3), .done)] -
        deletesDone [(.insertAtBeginning 7, .done), (.deleteAtPosition (-3), .done)] = 0 ∧
      printList ⟨some 0, [none]⟩ = .error .ub ∧
      printList ⟨some 0, [none]⟩ ≠ .ok [] := by
  decide

/-! ## Links of a represented list -/

theorem firstAddr_append_cons (l1 l2 : List (Nat × Int)) (t : Nat) (x : Int) :
    ∃ a, firstAddr (l1 ++ (t, x) :: l2) = some a := by
  cases l1 with
  | nil => exact ⟨t, rfl⟩
  | cons q l1 => exact ⟨q.1, rfl⟩

theorem lastAddr_concat (l : List (Nat × Int)) (q : Nat) (z : Int) :
    lastAddr (l ++ [(q, z)]) = some q := by
  simp [lastAddr]

/-- A segment that ends at `NULL` starts at its first address. -/
theorem seg_first {h : Heap} {ns : List (Nat × Int)} {p c p1 : Ptr}
    (hs : Seg h p c ns p1 none) : c = firstAddr ns := by
  cases ns with
  | nil => exact ((seg_nil.mp hs).2).symm
  | cons q ns => exact (seg_cons.mp hs).1

/-- A segment entered with back pointer `NULL` leaves with its last address. -/
theorem seg_last {h : Heap} {ns : List (Nat × Int)} {c p1 c1 : Ptr}
    (hs : Seg h none c ns p1 c1) : p1 = lastAddr ns := by
  rcases List.eq_nil_or_concat ns with rfl | ⟨l, ⟨q, z⟩, rfl⟩
  · exact (seg_nil.mp hs).1
  · rw [List.concat_eq_append] at hs ⊢
    rw [seg_back hs, lastAddr_concat]

theorem rep_head {s : State} {ns : List (Nat × Int)} (hr : Rep s ns) :
    s.head = firstAddr ns := by
  obtain ⟨_, p1, hs⟩ := hr
  exact seg_first hs

/-- The node listed after the stretch `l1`: the `for` loop reaches it in
`l1.length` steps, its `next` is the first address after it and its `prev` the last
address before it. -/
theorem rep_node {s : State} {l1 l2 : List (Nat × Int)} {t : Nat} {x : Int}
    (hr : Rep s (l1 ++ (t, x) :: l2)) :
    advance s.heap l1.length s.head = .ok (some t) ∧
      load s.heap t = some ⟨x, firstAddr l2, lastAddr l1⟩ := by
  obtain ⟨_, p1, hs⟩ := hr
  obtain ⟨pm, cm, hs1, hs2⟩ := seg_append.mp hs
  obtain ⟨hc, nx, hl, hrest⟩ := seg_cons.mp hs2
  subst hc
  have h1 := seg_last hs1
  have h2 := seg_first hrest
  subst h1 h2
  exact ⟨advance_seg hs1, hl⟩

/-- The `while` loop that looks for the tail stops at the last listed node. -/
theorem rep_lastNode {s : State} {l : List (Nat × Int)} {t : Nat} {x : Int}
    (hr : Rep s (l ++ [(t, x)])) :
    ∃ hd, s.head = some hd ∧ lastNode s.heap s.heap.length hd = .ok t := by
  obtain ⟨hnd, p1, hs⟩ := hr
  have hlen := seg_length_le hnd hs
  obtain ⟨hd, hhd⟩ := seg_start (by simp) hs
  rw [hhd] at hs
  refine ⟨hd, hhd, lastNode_seg hs ?_⟩
  simp only [List.length_append, List.length_singleton] at hlen
  omega

/-- Every listed address is an allocated node. -/
theorem rep_live {s : State} {ns : List (Nat × Int)} (hr : Rep s ns) {a : Nat}
    (ha : a ∈ ns.map Prod.fst) : ∃ n, load s.heap a = some n :=
  seg_live hr.2.choose_spec a ha

theorem firstAddr_append {l : List (Nat × Int)} (hne : l ≠ []) (l2 : List (Nat × Int)) :
    firstAddr (l ++ l2) = firstAddr l := by
  cases l with
  | nil => exact absurd rfl hne
  | cons q l => rfl

theorem firstAddr_eq_some {ns : List (Nat × Int)} {a : Nat} (h : firstAddr ns = some a) :
    ∃ x rest, ns = (a, x) :: rest := by
  cases ns with
  | nil => simp [firstAddr] at h
  | cons q ns =>
    obtain ⟨b, y⟩ := q
    simp only [firstAddr, List.head?_cons, Option.map_some', Option.some.injEq] at h
    subst h
    exact ⟨y, ns, rfl⟩

theorem lastAddr_mem {l : List (Nat × Int)} (hne : l ≠ []) :
    ∃ q, lastAddr l = some q ∧ q ∈ l.map Prod.fst := by
  rcases List.eq_nil_or_concat l with rfl | ⟨l0, ⟨q, z⟩, rfl⟩
  · exact absurd rfl hne
  · rw [List.concat_eq_append]
    exact ⟨q, lastAddr_concat l0 q z, by simp⟩

/-- One past the end, `insertAtPosition` and `insertAtEnd` return the same state. -/
theorem insertAtPosition_end {s : State} {ns : List (Nat × Int)} (v : Int) (hr : Rep s ns) :
    insertAtPosition s v ((ns.length : Int) + 1) = insertAtEnd s v := by
  obtain ⟨hd, hp⟩ := s
  rcases List.eq_nil_or_concat ns with rfl | ⟨l, ⟨t, x⟩, rfl⟩
  · have hh : hd = none := (rep_head_none hr).mpr rfl
    subst hh
    simp [insertAtPosition, insertAtBeginning, insertAtEnd]
  · rw [List.concat_eq_append] at hr ⊢
    obtain ⟨hd0, hhd, hlast⟩ := rep_lastNode hr
    obtain ⟨hadv, hl⟩ := rep_node hr
    simp only at hhd hlast hadv hl
    subst hhd
    obtain ⟨hnd, p1, hs⟩ := hr
    simp only at hs
    have hfresh := seg_fresh hs
    have ht := load_lt hl
    have htn : t ≠ hp.length := Nat.ne_of_lt ht
    have ht1 : t < hp.length + 1 := Nat.lt_succ_of_lt ht
    have hs0 : Seg (hp ++ [some (Node.mk v none none)]) none (some hd0) (l ++ [(t, x)]) p1 none :=
      seg_frame (fun b hb => by
        have : b ≠ hp.length := fun e => hfresh (e ▸ hb)
        simp [load_append, this]) hs
    obtain ⟨pm, cm, hs1, hs2⟩ := seg_append.mp hs0
    have hcm : cm = some t := (seg_cons.mp hs2).1
    subst hcm
    have hadv0 := advance_seg hs1
    have hlast0 : lastNode (hp ++ [some (Node.mk v none none)]) (hp.length + 1) hd0 = .ok t :=
      lastNode_seg hs0 (by
        have := seg_length_le hnd hs
        simp only [List.length_append, List.length_singleton] at this; omega)
    have hpos : (((l ++ [(t, x)]).length : Nat) : Int) + 1 = (l.length : Int) + 2 := by
      simp only [List.length_append, List.length_singleton]; push_cast; ring
    have hpos1 : ¬ ((l.length : Int) + 2 < 1) := by omega
    have hpos2 : ¬ ((l.length : Int) + 2 = 1) := by omega
    have hk : ((l.length : Int) + 2 - 1 - 1).toNat = l.length := by omega
    rw [hpos]
    simp [insertAtPosition, hpos1, hpos2, createNode, hk, hadv0, insertAtEnd, hlast0, deref,
      setNext, setPrev, load_append, load_set_if, htn, Ne.symm htn, hl, ht1, bind,
      Except.bind, firstAddr]
    apply List.ext_getElem?
    intro i
    simp only [List.getElem?_set, List.getElem?_append, List.length_set, List.length_append,
      List.length_singleton]
    by_cases h1 : t = i
    · subst h1
      simp [ht, ht1, Ne.symm htn]
    · by_cases h2 : hp.length = i
      · subst h2
        simp [h1]
      · simp only [h1, h2, if_false]
        by_cases h3 : i < hp.length
        · simp [h3]
        · have h4 : i - hp.length ≠ 0 := by omega
          simp [h3, h4]
          rcases hi : i - hp.length with _ | k
          · omega
          · simp

/-! ## Allocated nodes -/

theorem mem_allocated {h : Heap} {a : Nat} : a ∈ allocated h ↔ ∃ n, load h a = some n := by
  simp only [allocated, List.mem_filter, List.mem_range, Option.isSome_iff_exists]
  constructor
  · rintro ⟨_, hn⟩; exact hn
  · rintro ⟨n, hn⟩; exact ⟨load_lt hn, n, hn⟩

theorem allocated_nodup (h : Heap) : (allocated h).Nodup :=
  (List.nodup_range h.length).filter _

theorem allocated_length (h : Heap) : (allocated h).length = (allocated h).toFinset.card :=
  (List.toFinset_card_of_nodup (allocated_nodup h)).symm

/-- Allocating a cell adds one allocated node. -/
theorem allocated_create (h : Heap) (n : Node) :
    (allocated (h ++ [some n])).length = (allocated h).length + 1 := by
  have he : (allocated (h ++ [some n])).toFinset = insert h.length (allocated h).toFinset := by
    ext a
    simp only [List.mem_toFinset, mem_allocated, Finset.mem_insert, load_append]
    by_cases ha : a = h.length
    · simp [ha]
    · simp [ha]
  have hnew : h.length ∉ (allocated h).toFinset := by
    simp [mem_allocated, load_length]
  rw [allocated_length, allocated_length, he, Finset.card_insert_of_not_mem hnew]

/-- Writing a node into an allocated cell keeps the allocated nodes. -/
theorem allocated_store {h : Heap} {a : Nat} {n : Node} (m : Node) (hl : load h a = some n) :
    (allocated (h.set a (some m))).length = (allocated h).length := by
  have he : (allocated (h.set a (some m))).toFinset = (allocated h).toFinset := by
    ext c
    simp only [List.mem_toFinset, mem_allocated, load_set_if]
    by_cases hc : c = a
    · subst hc; simp [load_lt hl, hl]
    · simp [hc]
  rw [allocated_length, allocated_length, he]

/-- Releasing an allocated cell removes one allocated node. -/
theorem allocated_release {h : Heap} {a : Nat} {n : Node} (hl : load h a = some n) :
    (allocated (h.set a none)).length + 1 = (allocated h).length := by
  have he : (allocated (h.set a none)).toFinset = (allocated h).toFinset.erase a := by
    ext c
    simp only [List.mem_toFinset, mem_allocated, load_set_if, Finset.mem_erase]
    by_cases hc : c = a
    · subst hc; simp [load_lt hl]
    · simp [hc]
  have hmem : a ∈ (allocated h).toFinset := by
    simp only [List.mem_toFinset, mem_allocated]; exact ⟨n, hl⟩
  have hpos : 0 < (allocated h).toFinset.card := Finset.card_pos.mpr ⟨a, hmem⟩
  rw [allocated_length, allocated_length, he, Finset.card_erase_of_mem hmem]
  omega

theorem bind_ok {α β : Type} {x : Except Fault α} {f : α → Except Fault β} {b : β}
    (h : (x >>= f) = .ok b) : ∃ a, x = .ok a ∧ f a = .ok b := by
  cases x with
  | error e => simp [bind, Except.bind] at h
  | ok a => exact ⟨a, rfl, by simpa [bind, Except.bind] using h⟩

theorem setNext_allocated {h h1 : Heap} {p v : Ptr} (hs : setNext h p v = .ok h1) :
    (allocated h1).length = (allocated h).length := by
  unfold setNext at hs
  cases p with
  | none => simp at hs
  | some a =>
    simp only at hs
    cases hl : load h a with
    | none => simp [hl] at hs
    | some n =>
      simp only [hl, Except.ok.injEq] at hs
      subst hs
      exact allocated_store _ hl

theorem setPrev_allocated {h h1 : Heap} {p v : Ptr} (hs : setPrev h p v = .ok h1) :
    (allocated h1).length = (allocated h).length := by
  unfold setPrev at hs
  cases p with
  | none => simp at hs
  | some a =>
    simp only at hs
    cases hl : load h a with
    | none => simp [hl] at hs
    | some n =>
      simp only [hl, Except.ok.injEq] at hs
      subst hs
      exact allocated_store _ hl

theorem free_allocated {h h1 : Heap} {a : Nat} (hs : free h (some a) = .ok h1) :
    (allocated h1).length + 1 = (allocated h).length := by
  unfold free at hs
  simp only at hs
  cases hl : load h a with
  | none => simp [hl] at hs
  | some n =>
    simp only [hl, Except.ok.injEq] at hs
    subst hs
    exact allocated_release hl

theorem insertAtBeginning_allocated {s s1 : State} {d : Int} {r : Report}
    (h : insertAtBeginning s d = .ok (r, s1)) :
    r = .done ∧ (allocated s1.heap).length = (allocated s.heap).length + 1 := by
  unfold insertAtBeginning createNode at h
  simp only at h
  cases hh : s.head with
  | none =>
    simp only [hh, Except.ok.injEq, Prod.mk.injEq] at h
    obtain ⟨rfl, rfl⟩ := h
    exact ⟨rfl, allocated_create _ _⟩
  | some hd =>
    simp only [hh] at h
    obtain ⟨h1, e1, h⟩ := bind_ok h
    obtain ⟨h2, e2, h⟩ := bind_ok h
    simp only [Except.ok.injEq, Prod.mk.injEq] at h
    obtain ⟨rfl, rfl⟩ := h
    refine ⟨rfl, ?_⟩
    rw [setPrev_allocated e2, setNext_allocated e1]
    exact allocated_create _ _

theorem insertAtEnd_allocated {s s1 : State} {d : Int} {r : Report}
    (h : insertAtEnd s d = .ok (r, s1)) :
    r = .done ∧ (allocated s1.heap).length = (allocated s.heap).length + 1 := by
  unfold insertAtEnd createNode at h
  simp only at h
  cases hh : s.head with
  | none =>
    simp only [hh, Except.ok.injEq, Prod.mk.injEq] at h
    obtain ⟨rfl, rfl⟩ := h
    exact ⟨rfl, allocated_create _ _⟩
  | some hd =>
    simp only [hh] at h
    obtain ⟨t, e0, h⟩ := bind_ok h
    obtain ⟨h1, e1, h⟩ := bind_ok h
    obtain ⟨h2, e2, h⟩ := bind_ok h
    simp only [Except.ok.injEq, Prod.mk.injEq] at h
    obtain ⟨rfl, rfl⟩ := h
    refine ⟨rfl, ?_⟩
    rw [setPrev_allocated e2, setNext_allocated e1]
    exact allocated_create _ _

theorem deleteAtBeginning_allocated {s s1 : State} {r : Report}
    (h : deleteAtBeginning s = .ok (r, s1)) :
    (r = .emptyList ∧ s1 = s) ∨
      (r = .done ∧ (allocated s1.heap).length + 1 = (allocated s.heap).length) := by
  unfold deleteAtBeginning at h
  cases hh : s.head with
  | none =>
    simp only [hh, Except.ok.injEq, Prod.mk.injEq] at h
    exact Or.inl ⟨h.1.symm, h.2.symm⟩
  | some hd =>
    simp only [hh] at h
    obtain ⟨t, e0, h⟩ := bind_ok h
    obtain ⟨h1, e1, h⟩ := bind_ok h
    obtain ⟨h2, e2, h⟩ := bind_ok h
    simp only [Except.ok.injEq, Prod.mk.injEq] at h
    obtain ⟨rfl, rfl⟩ := h
    refine Or.inr ⟨rfl, ?_⟩
    have hc : (allocated h1).length = (allocated s.heap).length := by
      cases hn : t.next with
      | none =>
        simp only [hn, Except.ok.injEq] at e1
        rw [← e1]
      | some nx =>
        simp only [hn] at e1
        exact setPrev_allocated e1
    rw [free_allocated e2, hc]

theorem deleteAtEnd_allocated {s s1 : State} {r : Report}
    (h : deleteAtEnd s = .ok (r, s1)) :
    (r = .emptyList ∧ s1 = s) ∨
      (r = .done ∧ (allocated s1.heap).length + 1 = (allocated s.heap).length) := by
  unfold deleteAtEnd at h
  cases hh : s.head with
  | none =>
    simp only [hh, Except.ok.injEq, Prod.mk.injEq] at h
    exact Or.inl ⟨h.1.symm, h.2.symm⟩
  | some hd =>
    simp only [hh] at h
    obtain ⟨t, e0, h⟩ := bind_ok h
    cases hn : t.next with
    | none =>
      simp only [hn] at h
      obtain ⟨h1, e1, h⟩ := bind_ok h
      simp only [Except.ok.injEq, Prod.mk.injEq] at h
      obtain ⟨rfl, rfl⟩ := h
      exact Or.inr ⟨rfl, free_allocated e1⟩
    | some nx =>
      simp only [hn] at h
      obtain ⟨temp, e1, h⟩ := bind_ok h
      obtain ⟨l, e2, h⟩ := bind_ok h
      obtain ⟨h1, e3, h⟩ := bind_ok h
      obtain ⟨h2, e4, h⟩ := bind_ok h
      simp only [Except.ok.injEq, Prod.mk.injEq] at h
      obtain ⟨rfl, rfl⟩ := h
      refine Or.inr ⟨rfl, ?_⟩
      rw [free_allocated e4, setNext_allocated e3]

theorem insertAtPosition_allocated {s s1 : State} {d p : Int} {r : Report}
    (h : insertAtPosition s d p = .ok (r, s1)) :
    (r = .invalidPosition ∧ s1 = s) ∨
      (r = .positionOutOfRange ∧ (allocated s1.heap).length = (allocated s.heap).length) ∨
      (r = .done ∧ (allocated s1.heap).length = (allocated s.heap).length + 1) := by
  unfold insertAtPosition at h
  by_cases h1 : p < 1
  · simp only [h1, if_true, Except.ok.injEq, Prod.mk.injEq] at h
    exact Or.inl ⟨h.1.symm, h.2.symm⟩
  · by_cases h2 : p = 1
    · simp only [h1, h2, if_false, if_true] at h
      exact Or.inr (Or.inr (insertAtBeginning_allocated h))
    · simp only [h1, h2, if_false, createNode] at h
      have hc := allocated_create s.heap (Node.mk d none none)
      cases ha : advance (s.heap ++ [some (Node.mk d none none)]) (p - 1 - 1).toNat s.head with
      | error e =>
        simp only [ha] at h
        cases h
      | ok temp =>
        cases temp with
        | none =>
          simp only [ha] at h
          obtain ⟨g1, e1, h⟩ := bind_ok h
          simp only [Except.ok.injEq, Prod.mk.injEq] at h
          obtain ⟨rfl, rfl⟩ := h
          refine Or.inr (Or.inl ⟨rfl, ?_⟩)
          have := free_allocated e1
          simp only at this ⊢
          omega
        | some temp =>
          simp only [ha] at h
          obtain ⟨t, e0, h⟩ := bind_ok h
          obtain ⟨g1, e1, h⟩ := bind_ok h
          obtain ⟨g2, e2, h⟩ := bind_ok h
          obtain ⟨t2, e3, h⟩ := bind_ok h
          obtain ⟨g3, e4, h⟩ := bind_ok h
          obtain ⟨g4, e5, h⟩ := bind_ok h
          simp only [Except.ok.injEq, Prod.mk.injEq] at h
          obtain ⟨rfl, rfl⟩ := h
          refine Or.inr (Or.inr ⟨rfl, ?_⟩)
          have hg3 : (allocated g3).length = (allocated g2).length := by
            cases hn : t2.next with
            | none =>
              simp only [hn, Except.ok.injEq] at e4
              rw [← e4]
            | some nx =>
              simp only [hn] at e4
              exact setPrev_allocated e4
          rw [setNext_allocated e5, hg3, setPrev_allocated e2, setNext_allocated e1, hc]

theorem deleteAtPosition_allocated {s s1 : State} {p : Int} {r : Report}
    (h : deleteAtPosition s p = .ok (r, s1)) :
    ((r = .emptyList ∨ r = .positionOutOfRange) ∧ s1 = s) ∨
      (r = .done ∧ (allocated s1.heap).length + 1 = (allocated s.heap).length) := by
  unfold deleteAtPosition at h
  cases hh : s.head with
  | none =>
    simp only [hh, Except.ok.injEq, Prod.mk.injEq] at h
    exact Or.inl ⟨Or.inl h.1.symm, h.2.symm⟩
  | some hd =>
    simp only [hh] at h
    by_cases h1 : p = 1
    · simp only [h1, if_true] at h
      rcases deleteAtBeginning_allocated h with ⟨hr, hs⟩ | hdone
      · exact Or.inl ⟨Or.inl hr, hs⟩
      · exact Or.inr hdone
    · simp only [h1, if_false] at h
      cases ha : advance s.heap (p - 1).toNat (some hd) with
      | error e =>
        simp only [ha] at h
        cases h
      | ok temp =>
        cases temp with
        | none =>
          simp only [ha, Except.ok.injEq, Prod.mk.injEq] at h
          exact Or.inl ⟨Or.inr h.1.symm, h.2.symm⟩
        | some temp =>
          simp only [ha] at h
          obtain ⟨t, e0, h⟩ := bind_ok h
          obtain ⟨g1, e1, h⟩ := bind_ok h
          obtain ⟨t2, e2, h⟩ := bind_ok h
          obtain ⟨g2, e3, h⟩ := bind_ok h
          obtain ⟨g3, e4, h⟩ := bind_ok h
          simp only [Except.ok.injEq, Prod.mk.injEq] at h
          obtain ⟨rfl, rfl⟩ := h
          refine Or.inr ⟨rfl, ?_⟩
          have hg1 : (allocated g1).length = (allocated s.heap).length := by
            cases hn : t.next with
            | none =>
              simp only [hn, Except.ok.injEq] at e1
              rw [← e1]
            | some nx =>
              simp only [hn] at e1
              exact setPrev_allocated e1
          have hg2 : (allocated g2).length = (allocated g1).length := by
            cases hn : t2.prev with
            | none =>
              simp only [hn, Except.ok.injEq] at e3
              rw [← e3]
            | some pv =>
              simp only [hn] at e3
              exact setNext_allocated e3
          rw [free_allocated e4, hg2, hg1]

/-- However an operation returns, the number of allocated nodes moved by one exactly
when an insert or a delete reported nothing. -/
theorem step_allocated {s s1 : State} {op : Op} {r : Report}
    (h : step s op = .ok (r, s1)) :
    (allocated s1.heap).length + deletesDone [(op, r)] =
      (allocated s.heap).length + insertsDone [(op, r)] := by
  cases op with
  | insertAtBeginning d =>
    obtain ⟨rfl, hc⟩ := insertAtBeginning_allocated h
    simp only [insertsDone, deletesDone]; omega
  | insertAtEnd d =>
    obtain ⟨rfl, hc⟩ := insertAtEnd_allocated h
    simp only [insertsDone, deletesDone]; omega
  | insertAtPosition d p =>
    rcases insertAtPosition_allocated h with ⟨rfl, rfl⟩ | ⟨rfl, hc⟩ | ⟨rfl, hc⟩ <;>
      (simp only [insertsDone, deletesDone] <;> omega)
  | deleteAtBeginning =>
    rcases deleteAtBeginning_allocated h with ⟨rfl, rfl⟩ | ⟨rfl, hc⟩ <;>
      (simp only [insertsDone, deletesDone] <;> omega)
  | deleteAtEnd =>
    rcases deleteAtEnd_allocated h with ⟨rfl, rfl⟩ | ⟨rfl, hc⟩ <;>
      (simp only [insertsDone, deletesDone] <;> omega)
  | deleteAtPosition p =>
    rcases deleteAtPosition_allocated h with ⟨rfl | rfl, rfl⟩ | ⟨rfl, hc⟩ <;>
      (simp only [insertsDone, deletesDone] <;> omega)

/-- On a represented list, the allocated nodes are exactly the listed nodes as soon
as there are as many of them. -/
theorem rep_allocated_iff {s : State} {ns : List (Nat × Int)} (hr : Rep s ns) :
    (allocated s.heap).length = ns.length ↔
      ∀ a, a ∈ allocated s.heap ↔ a ∈ ns.map Prod.fst := by
  have hsub : ns.map Prod.fst ⊆ allocated s.heap :=
    fun a ha => mem_allocated.mpr (rep_live hr ha)
  have hsp := hr.1.subperm hsub
  constructor
  · intro hlen a
    have hperm := hsp.perm_of_length_le (by simp [hlen])
    exact (hperm.mem_iff).symm
  · intro hmem
    have hsub2 : allocated s.heap ⊆ ns.map Prod.fst := fun a ha => (hmem a).mp ha
    have h1 := ((allocated_nodup s.heap).subperm hsub2).length_le
    have h2 := hsp.length_le
    simp only [List.length_map] at h1 h2
    omega

/-- A sequence of operations whose delete positions are at least `1`, run on a
list whose nodes are the only allocated ones, returns such a list again. -/
theorem run_allocated : ∀ (ops : List Op) {s : State} {ns : List (Nat × Int)}, Rep s ns →
    (allocated s.heap).length = ns.length → (∀ op ∈ ops, op.guarded) →
    ∃ rs s1 ns1, run s ops = .ok (rs, s1) ∧ Rep s1 ns1 ∧
      (allocated s1.heap).length = ns1.length
  | [], s, ns, hr, hc, _ => ⟨[], s, ns, rfl, hr, hc⟩
  | op :: ops, s, ns, hr, hc, hg => by
    obtain ⟨r, s1, ns1, h1, hr1, hl1⟩ := step_rep op hr (hg op (by simp))
    have hc1 := step_allocated h1
    obtain ⟨rs, s2, ns2, h2, hr2, hc2⟩ :=
      run_allocated ops hr1 (by omega) (fun o ho => hg o (by simp [ho]))
    exact ⟨r :: rs, s2, ns2, by simp [run, h1, h2], hr2, hc2⟩

/-- Started from the empty list with nothing allocated, a sequence of operations
whose delete positions are at least `1` returns a well-formed list whose nodes are
exactly the allocated nodes. -/
theorem run_init_allocated (ops : List Op) (hg : ∀ op ∈ ops, op.guarded) :
    ∃ rs s1 ns1, run init ops = .ok (rs, s1) ∧ Rep s1 ns1 ∧
      ∀ a, a ∈ allocated s1.heap ↔ a ∈ ns1.map Prod.fst := by
  obtain ⟨rs, s1, ns1, h1, hr1, hc1⟩ := run_allocated ops rep_init (by simp [init, allocated]) hg
  exact ⟨rs, s1, ns1, h1, hr1, (rep_allocated_iff hr1).mp hc1⟩

/-! ## The claims, continued -/

/-- C11: the scripted run of `main`. The four inserts give `0, 3, 1, 2`; `search(3)`
reports position `2`; `deleteAtBeginning` gives `3, 1, 2`; `deleteAtEnd` gives
`3, 1`; `deleteAtPosition(2)` gives `3`; `search(3)` reports position `1` and
`search(1)` reports not-found; the final traversal prints `3`. -/
theorem demo_trace :
    run init [.insertAtEnd 1, .insertAtEnd 2, .insertAtBeginning 0, .insertAtPosition 3 2] =
        .ok ([.done, .done, .done, .done], demoInserted) ∧
      printList demoInserted = .ok [0, 3, 1, 2] ∧
      search demoInserted 3 = .ok (.found 3 2) ∧
      deleteAtBeginning demoInserted = .ok (.done, demoFirstGone) ∧
      printList demoFirstGone = .ok [3, 1, 2] ∧
      deleteAtEnd demoFirstGone = .ok (.done, demoLastGone) ∧
      printList demoLastGone = .ok [3, 1] ∧
      deleteAtPosition demoLastGone 2 = .ok (.done, demoFinal) ∧
      printList demoFinal = .ok [3] ∧
      search demoFinal 3 = .ok (.found 3 1) ∧
      search demoFinal 1 = .ok (.notFound 1) := by
  decide

/-- C12: on a well-formed list with values `xs`, `insertAtBeginning(v)` returns
without a message and the list then holds `v` followed by `xs`; the new node is the
head, its `next` is the former head (`NULL` when the list was empty), its `prev` is
`NULL`, and the former head's `prev` designates the new node. -/
theorem insertAtBeginning_links (s : State) (xs : List Int) (v : Int) (hwf : WF s)
    (hxs : printList s = .ok xs) :
    ∃ s1, insertAtBeginning s v = .ok (.done, s1) ∧ WF s1 ∧
      printList s1 = .ok (v :: xs) ∧
      s1.head = some s.heap.length ∧
      load s1.heap s.heap.length = some ⟨v, s.head, none⟩ ∧
      ∀ a, s.head = some a → ∃ m, load s1.heap a = some m ∧ m.prev = some s.heap.length := by
  obtain ⟨ns, hr, hv⟩ := wf_values hwf hxs
  obtain ⟨s1, hi, hr1⟩ := insertAtBeginning_rep v hr
  have hhead := rep_head hr
  have hnew := (@rep_node _ [] _ _ _ hr1).2
  refine ⟨s1, hi, ⟨_, hr1⟩, ?_, rep_head hr1, ?_, ?_⟩
  · rw [rep_printList hr1, ← hv]; rfl
  · rw [hnew, hhead]; rfl
  · intro a ha
    obtain ⟨x, rest, hns⟩ := firstAddr_eq_some (hhead ▸ ha)
    subst hns
    have hold := (@rep_node _ [(s.heap.length, v)] _ _ _ hr1).2
    exact ⟨_, hold, rfl⟩

/-- Witness of C12: inserting `9` in front of the list `1, 2`. -/
theorem insertAtBeginning_links_witness :
    WF twoNodes ∧ printList twoNodes = .ok [1, 2] ∧
      ∃ s1, insertAtBeginning twoNodes 9 = .ok (.done, s1) ∧ WF s1 ∧
        printList s1 = .ok (9 :: [1, 2]) ∧
        s1.head = some twoNodes.heap.length ∧
        load s1.heap twoNodes.heap.length = some ⟨9, twoNodes.head, none⟩ ∧
        ∀ a, twoNodes.head = some a →
          ∃ m, load s1.heap a = some m ∧ m.prev = some twoNodes.heap.length :=
  ⟨wf_twoNodes, rfl, insertAtBeginning_links twoNodes [1, 2] 9 wf_twoNodes rfl⟩

/-- C13: on a well-formed list with values `xs`, `insertAtEnd(v)` returns without
a message and the list then holds `xs` followed by `v`; when `xs` is empty the call
gives the very result of `insertAtBeginning(v)`. -/
theorem insertAtEnd_values (s : State) (xs : List Int) (v : Int) (hwf : WF s)
    (hxs : printList s = .ok xs) :
    (∃ s1, insertAtEnd s v = .ok (.done, s1) ∧ WF s1 ∧ printList s1 = .ok (xs ++ [v])) ∧
      (xs = [] → insertAtEnd s v = insertAtBeginning s v) := by
  obtain ⟨ns, hr, hv⟩ := wf_values hwf hxs
  obtain ⟨s1, hi, hr1⟩ := insertAtEnd_rep v hr
  refine ⟨⟨s1, hi, ⟨_, hr1⟩, ?_⟩, ?_⟩
  · rw [rep_printList hr1, ← hv]; simp
  · intro hxs0
    have hns : ns = [] := by
      rw [hxs0] at hv
      simpa using hv
    have hh := (rep_head_none hr).mpr hns
    simp [insertAtEnd, insertAtBeginning, hh]

/-- Witness of C13: appending `9` to the list `1, 2`. -/
theorem insertAtEnd_values_witness :
    WF twoNodes ∧ printList twoNodes = .ok [1, 2] ∧
      ((∃ s1, insertAtEnd twoNodes 9 = .ok (.done, s1) ∧ WF s1 ∧
        printList s1 = .ok ([1, 2] ++ [9])) ∧
      (([1, 2] : List Int) = [] → insertAtEnd twoNodes 9 = insertAtBeginning twoNodes 9)) :=
  ⟨wf_twoNodes, rfl, insertAtEnd_values twoNodes [1, 2] 9 wf_twoNodes rfl⟩

/-- C14: on a well-formed list with values `x :: xs`, `deleteAtBeginning` returns
without a message and the list then holds `xs`; the new `head` is the `next` link
the former head node had (`NULL` when there was no successor), and the node it
designates, if any, has `prev` equal to `NULL`. -/
theorem deleteAtBeginning_links (s : State) (x : Int) (xs : List Int) (hwf : WF s)
    (hxs : printList s = .ok (x :: xs)) :
    ∃ s1 a n, s.head = some a ∧ load s.heap a = some n ∧
      deleteAtBeginning s = .ok (.done, s1) ∧ WF s1 ∧ printList s1 = .ok xs ∧
      s1.head = n.next ∧
      ∀ b, s1.head = some b → ∃ m, load s1.heap b = some m ∧ m.prev = none := by
  obtain ⟨ns, hr, hv⟩ := wf_values hwf hxs
  cases ns with
  | nil => simp at hv
  | cons q ns =>
    obtain ⟨a, y⟩ := q
    simp only [List.map_cons, List.cons.injEq] at hv
    obtain ⟨hy, hv⟩ := hv
    subst hy
    obtain ⟨s1, hd, hr1⟩ := deleteAtBeginning_rep hr
    have hold := (@rep_node _ [] _ _ _ hr).2
    have hhead1 := rep_head hr1
    refine ⟨s1, a, _, rep_head hr, hold, hd, ⟨_, hr1⟩, ?_, hhead1, ?_⟩
    · rw [rep_printList hr1, hv]
    · intro b hb
      obtain ⟨z, rest, hns⟩ := firstAddr_eq_some (hhead1 ▸ hb)
      subst hns
      exact ⟨_, (@rep_node _ [] _ _ _ hr1).2, rfl⟩

/-- Witness of C14: deleting the first node of the list `1, 2`. -/
theorem deleteAtBeginning_links_witness :
    WF twoNodes ∧ printList twoNodes = .ok (1 :: [2]) ∧
      ∃ s1 a n, twoNodes.head = some a ∧ load twoNodes.heap a = some n ∧
        deleteAtBeginning twoNodes = .ok (.done, s1) ∧ WF s1 ∧ printList s1 = .ok [2] ∧
        s1.head = n.next ∧
        ∀ b, s1.head = some b → ∃ m, load s1.heap b = some m ∧ m.prev = none :=
  ⟨wf_twoNodes, rfl, deleteAtBeginning_links twoNodes 1 [2] wf_twoNodes rfl⟩

/-- C15: on a well-formed non-empty list with values `xs`, `deleteAtEnd` returns
without a message and the list then holds `xs` without its last value. A one-node
list becomes empty (`head` is `NULL`). Otherwise `head` is unchanged, and the node
the former tail's `prev` designated is the node at which the tail search now stops,
with `next` equal to `NULL`. -/
theorem deleteAtEnd_links (s : State) (xs : List Int) (hwf : WF s)
    (hxs : printList s = .ok xs) (hne : xs ≠ []) :
    ∃ s1, deleteAtEnd s = .ok (.done, s1) ∧ WF s1 ∧ printList s1 = .ok xs.dropLast ∧
      (xs.length = 1 → s1.head = none) ∧
      (2 ≤ xs.length → s1.head = s.head ∧
        ∃ hd t n q m, s.head = some hd ∧ lastNode s.heap s.heap.length hd = .ok t ∧
          load s.heap t = some n ∧ n.prev = some q ∧
          lastNode s1.heap s1.heap.length hd = .ok q ∧
          load s1.heap q = some m ∧ m.next = none) := by
  obtain ⟨ns, hr, hv⟩ := wf_values hwf hxs
  have hlen := values_length hv
  rcases List.eq_nil_or_concat ns with rfl | ⟨l, ⟨t, x⟩, rfl⟩
  · exact absurd (by simpa using hv.symm) hne
  · rw [List.concat_eq_append] at hr hv hlen
    obtain ⟨s1, hd, hr1⟩ := deleteAtEnd_rep hr
    refine ⟨s1, hd, ⟨_, hr1⟩, ?_, ?_, ?_⟩
    · rw [rep_printList hr1, ← hv]; simp
    · intro h1
      have hl : l = [] := by
        simp only [List.length_append, List.length_singleton] at hlen
        exact List.length_eq_zero.mp (by omega)
      subst hl
      exact rep_head hr1
    · intro h2
      have hl : l ≠ [] := by
        rintro rfl
        simp at hlen
        omega
      have hheads : s1.head = s.head := by
        rw [rep_head hr1, rep_head hr, firstAddr_append hl]
      obtain ⟨hd0, hhd, hlast⟩ := rep_lastNode hr
      have hold := (rep_node hr).2
      rcases List.eq_nil_or_concat l with rfl | ⟨l0, ⟨q, z⟩, rfl⟩
      · exact absurd rfl hl
      · rw [List.concat_eq_append] at hr1 hold
        obtain ⟨hd1, hhd1, hlast1⟩ := rep_lastNode hr1
        have hnew := (rep_node hr1).2
        have he : hd1 = hd0 := by
          rw [hheads, hhd] at hhd1
          exact (Option.some.inj hhd1).symm
        subst he
        exact ⟨hheads, hd1, t, _, q, _, hhd, hlast, hold, lastAddr_concat l0 q z, hlast1,
          hnew, rfl⟩

/-- Witness of C15: deleting the last node of the list `1, 2`. -/
theorem deleteAtEnd_links_witness :
    WF twoNodes ∧ printList twoNodes = .ok [1, 2] ∧
      ∃ s1, deleteAtEnd twoNodes = .ok (.done, s1) ∧ WF s1 ∧
        printList s1 = .ok ([1, 2] : List Int).dropLast ∧
        (([1, 2] : List Int).length = 1 → s1.head = none) ∧
        (2 ≤ ([1, 2] : List Int).length → s1.head = twoNodes.head ∧
          ∃ hd t n q m, twoNodes.head = some hd ∧
            lastNode twoNodes.heap twoNodes.heap.length hd = .ok t ∧
            load twoNodes.heap t = some n ∧ n.prev = some q ∧
            lastNode s1.heap s1.heap.length hd = .ok q ∧
            load s1.heap q = some m ∧ m.next = none) :=
  ⟨wf_twoNodes, rfl, deleteAtEnd_links twoNodes [1, 2] wf_twoNodes rfl (by decide)⟩

/-- C16: on a well-formed list of length `n`, `insertAtPosition(v, n + 1)` returns
the very state that `insertAtEnd(v)` returns (the list with `v` appended), while
`insertAtPosition(v, n + 2)` reports position-out-of-range and leaves `head`, every
heap cell and the values of the list as they were. -/
theorem insertAtPosition_past_end (s : State) (xs : List Int) (v : Int) (hwf : WF s)
    (hxs : printList s = .ok xs) :
    insertAtPosition s v ((xs.length : Int) + 1) = insertAtEnd s v ∧
      (∃ s1, insertAtEnd s v = .ok (.done, s1) ∧ WF s1 ∧ printList s1 = .ok (xs ++ [v])) ∧
      ∃ s2, insertAtPosition s v ((xs.length : Int) + 2) = .ok (.positionOutOfRange, s2) ∧
        s2.head = s.head ∧ (∀ a, load s2.heap a = load s.heap a) ∧
        printList s2 = .ok xs := by
  obtain ⟨ns, hr, hv⟩ := wf_values hwf hxs
  have hlen := values_length hv
  obtain ⟨s1, hi, hr1⟩ := insertAtEnd_rep v hr
  refine ⟨?_, ⟨s1, hi, ⟨_, hr1⟩, ?_⟩, _, insertAtPosition_high v hr (by omega), rfl,
    fun a => load_create_release _ _ a, ?_⟩
  · rw [hlen]; exact insertAtPosition_end v hr
  · rw [rep_printList hr1, ← hv]; simp
  · rw [rep_printList (rep_create_release _ hr), hv]

/-- Witness of C16: positions `3` and `4` on the list `1, 2`. -/
theorem insertAtPosition_past_end_witness :
    WF twoNodes ∧ printList twoNodes = .ok [1, 2] ∧
      (insertAtPosition twoNodes 9 ((([1, 2] : List Int).length : Int) + 1) =
          insertAtEnd twoNodes 9 ∧
        (∃ s1, insertAtEnd twoNodes 9 = .ok (.done, s1) ∧ WF s1 ∧
          printList s1 = .ok ([1, 2] ++ [9])) ∧
        ∃ s2, insertAtPosition twoNodes 9 ((([1, 2] : List Int).length : Int) + 2) =
            .ok (.positionOutOfRange, s2) ∧
          s2.head = twoNodes.head ∧ (∀ a, load s2.heap a = load twoNodes.heap a) ∧
          printList s2 = .ok [1, 2]) :=
  ⟨wf_twoNodes, rfl, insertAtPosition_past_end twoNodes [1, 2] 9 wf_twoNodes rfl⟩

/-- C17 (violated by the code): from the empty list, `insertAtEnd(1)`,
`insertAtEnd(2)`, `deleteAtPosition(-1)` all return without a message; afterwards
the only allocated node is the one at address `1`, while `head` holds address `0`,
a released node, so the allocated nodes are not the nodes reachable from `head` and
the call released the node `head` designates. -/
theorem deleteAtPosition_negative_releases_head :
    run init [.insertAtEnd 1, .insertAtEnd 2, .deleteAtPosition (-1)] =
        .ok ([.done, .done, .done], ⟨some 0, [none, some ⟨2, none, none⟩]⟩) ∧
      allocated [none, some ⟨2, none, none⟩] = [1] ∧
      load [none, some ⟨2, none, none⟩] 0 = none ∧
      printList ⟨some 0, [none, some ⟨2, none, none⟩]⟩ = .error .ub := by
  decide

/-- C18: each of the six operations, with a position of at least `1` for
`deleteAtPosition` and any integer position for `insertAtPosition`, run on a
well-formed list, returns a well-formed list. -/
theorem step_preserves_wf (s : State) (op : Op) (hwf : WF s) (hg : op.guarded) :
    ∃ r s1, step s op = .ok (r, s1) ∧ WF s1 := by
  obtain ⟨ns, hr⟩ := hwf
  obtain ⟨r, s1, ns1, h1, hr1, _⟩ := step_rep op hr hg
  exact ⟨r, s1, h1, ns1, hr1⟩

/-- Witness of C18: `deleteAtPosition(2)` on the list `1, 2`. -/
theorem step_preserves_wf_witness :
    WF twoNodes ∧ (Op.deleteAtPosition 2).guarded ∧
      ∃ r s1, step twoNodes (.deleteAtPosition 2) = .ok (r, s1) ∧ WF s1 :=
  ⟨wf_twoNodes, by decide,
    step_preserves_wf twoNodes (.deleteAtPosition 2) wf_twoNodes (by decide)⟩

/-- C19: on a well-formed non-empty list, `deleteAtPosition(p)` with `p < 1`
returns without a message and leaves `head` as it was; the node `head` designates
is released, the `prev` link of its successor (if it has one) is set to `NULL`, and
no other cell changes. After the call `head` designates a released node. -/
theorem deleteAtPosition_nonpositive (s : State) (xs : List Int) (p : Int) (hwf : WF s)
    (hxs : printList s = .ok xs) (hne : xs ≠ []) (hp : p < 1) :
    ∃ s1 a n, s.head = some a ∧ load s.heap a = some n ∧
      deleteAtPosition s p = .ok (.done, s1) ∧ s1.head = some a ∧
      load s1.heap a = none ∧
      (∀ b, n.next = some b →
        ∃ m, load s.heap b = some m ∧ load s1.heap b = some ⟨m.data, m.next, none⟩) ∧
      ∀ c, c ≠ a → n.next ≠ some c → load s1.heap c = load s.heap c := by
  obtain ⟨ns, hr, hv⟩ := wf_values hwf hxs
  obtain ⟨hd, hh⟩ := s
  cases ns with
  | nil => exact absurd (by simpa using hv.symm) hne
  | cons q ns =>
    obtain ⟨a, x⟩ := q
    have hhead : hd = some a := rep_head hr
    subst hhead
    have hl := (@rep_node _ [] _ _ _ hr).2
    simp only at hl
    have ha := load_lt hl
    have hpos : ¬ p = 1 := by omega
    have hk : (p - 1).toNat = 0 := by omega
    cases ns with
    | nil =>
      refine ⟨State.mk (some a) (hh.set a none), a, _, rfl, hl, ?_, rfl, ?_, ?_, ?_⟩
      · simp only [deleteAtPosition, hpos, if_false, hk, advance]
        simp [deref, free, hl, firstAddr, lastAddr, bind, Except.bind]
      · simp [load_set_if, ha]
      · intro b hb
        simp [firstAddr] at hb
      · intro c hc _
        simp [load_set_if, hc]
    | cons r ns =>
      obtain ⟨b, y⟩ := r
      have hl2 := (@rep_node _ [(a, x)] _ _ _ hr).2
      simp only at hl2
      have hb := load_lt hl2
      have hab : a ≠ b := by
        have := hr.1
        simp only [List.map_cons, List.nodup_cons, List.mem_cons, not_or] at this
        exact this.1.1
      refine ⟨State.mk (some a) ((hh.set b (some (Node.mk y (firstAddr ns) none))).set a none),
        a, _, rfl, hl, ?_, rfl, ?_, ?_, ?_⟩
      · simp only [deleteAtPosition, hpos, if_false, hk, advance]
        simp [deref, free, setPrev, hl, hl2, firstAddr, lastAddr, load_set_if, hab, bind,
          Except.bind]
      · simp [load_set_if, ha]
      · intro c hc
        simp only [firstAddr, List.head?_cons, Option.map_some', Option.some.injEq] at hc
        subst hc
        exact ⟨_, hl2, by simp [load_set_if, Ne.symm hab, hb]⟩
      · intro c hc1 hc2
        have hc3 : c ≠ b := fun e => hc2 (by simp [firstAddr, e])
        simp [load_set_if, hc1, hc3]

/-- Witness of C19: `deleteAtPosition(0)` on the list `1, 2`. -/
theorem deleteAtPosition_nonpositive_witness :
    WF twoNodes ∧ printList twoNodes = .ok [1, 2] ∧
      ∃ s1 a n, twoNodes.head = some a ∧ load twoNodes.heap a = some n ∧
        deleteAtPosition twoNodes 0 = .ok (.done, s1) ∧ s1.head = some a ∧
        load s1.heap a = none ∧
        (∀ b, n.next = some b →
          ∃ m, load twoNodes.heap b = some m ∧
            load s1.heap b = some ⟨m.data, m.next, none⟩) ∧
        ∀ c, c ≠ a → n.next ≠ some c → load s1.heap c = load twoNodes.heap c :=
  ⟨wf_twoNodes, rfl,
    deleteAtPosition_nonpositive twoNodes [1, 2] 0 wf_twoNodes rfl (by decide) (by decide)⟩

/-- C20: on a well-formed list with at least two nodes, the node at which the
tail search of `deleteAtEnd` stops has a `prev` link that designates an allocated
node; and for `2 ≤ p ≤ length` the node the `for` loop of `deleteAtPosition(p)`
reaches has a `prev` link that designates an allocated node. -/
theorem unguarded_prev_present (s : State) (xs : List Int) (hwf : WF s)
    (hxs : printList s = .ok xs) :
    (2 ≤ xs.length → ∃ hd t n q m, s.head = some hd ∧
      lastNode s.heap s.heap.length hd = .ok t ∧ load s.heap t = some n ∧
      n.prev = some q ∧ load s.heap q = some m) ∧
    (∀ p : Int, 2 ≤ p → p ≤ (xs.length : Int) → ∃ t n q m,
      advance s.heap (p - 1).toNat s.head = .ok (some t) ∧ load s.heap t = some n ∧
      n.prev = some q ∧ load s.heap q = some m) := by
  obtain ⟨ns, hr, hv⟩ := wf_values hwf hxs
  have hlen := values_length hv
  constructor
  · intro h2
    rcases List.eq_nil_or_concat ns with rfl | ⟨l, ⟨t, x⟩, rfl⟩
    · simp only [List.length_nil] at hlen; omega
    · rw [List.concat_eq_append] at hr hlen
      have hl : l ≠ [] := by
        rintro rfl
        simp at hlen
        omega
      obtain ⟨hd0, hhd, hlast⟩ := rep_lastNode hr
      obtain ⟨q, hq, hmem⟩ := lastAddr_mem hl
      obtain ⟨m, hm⟩ := rep_live hr (a := q) (by simp [hmem])
      exact ⟨hd0, t, _, q, m, hhd, hlast, (rep_node hr).2, hq, hm⟩
  · intro p h2 hp
    have hk : (p - 1).toNat < ns.length := by omega
    have hsplit : ns = ns.take (p - 1).toNat ++
        ((ns[(p - 1).toNat]).1, (ns[(p - 1).toNat]).2) :: ns.drop ((p - 1).toNat + 1) := by
      rw [Prod.mk.eta, ← List.drop_eq_getElem_cons hk, List.take_append_drop]
    have hr1 := hr
    rw [hsplit] at hr1
    obtain ⟨hadv, hl⟩ := rep_node hr1
    rw [List.length_take, Nat.min_eq_left (Nat.le_of_lt hk)] at hadv
    have hne : ns.take (p - 1).toNat ≠ [] := by
      intro h0
      have := congrArg List.length h0
      rw [List.length_take, Nat.min_eq_left (Nat.le_of_lt hk)] at this
      simp at this
      omega
    obtain ⟨q, hq, hmem⟩ := lastAddr_mem hne
    have hmem2 : q ∈ ns.map Prod.fst := by
      rw [List.map_take] at hmem
      exact List.mem_of_mem_take hmem
    obtain ⟨m, hm⟩ := rep_live hr hmem2
    exact ⟨_, _, q, m, hadv, hl, hq, hm⟩

/-- Witness of C20: the list `1, 2`. -/
theorem unguarded_prev_present_witness :
    WF twoNodes ∧ printList twoNodes = .ok [1, 2] ∧
      ((2 ≤ ([1, 2] : List Int).length → ∃ hd t n q m, twoNodes.head = some hd ∧
        lastNode twoNodes.heap twoNodes.heap.length hd = .ok t ∧
        load twoNodes.heap t = some n ∧ n.prev = some q ∧ load twoNodes.heap q = some m) ∧
      (∀ p : Int, 2 ≤ p → p ≤ (([1, 2] : List Int).length : Int) → ∃ t n q m,
        advance twoNodes.heap (p - 1).toNat twoNodes.head = .ok (some t) ∧
        load twoNodes.heap t = some n ∧ n.prev = some q ∧ load twoNodes.heap q = some m)) :=
  ⟨wf_twoNodes, rfl, unguarded_prev_present twoNodes [1, 2] wf_twoNodes rfl⟩

end DList
